import Mathlib

/-!
Shallow embedding of the brainchain orchestrator core (Go sources:
`cmd/chat/internal/executor` (file `executor.go`, provided unnamed),
`cmd/chat/internal/workflow/{workflow.go,types.go}` and
`cmd/chat/internal/session/database.go`), together with theorems that
check the natural-language specification's claims about that code.

Modelling conventions:
* Go maps become association lists (`List (String × _)`); Go map indexing
  becomes `List.lookup` (keys are unique in the configurations we model).
* The external agent adapter (`adp.Run`) is an oracle `Nat → AttemptOutcome`
  indexed by the attempt number; a Go `ctx` is an oracle
  `Nat → Option String` giving the `ctx.Err()` message observed by the
  `select` before attempt `n`'s retry delay (`none` = not cancelled).
* Fallible Go functions returning `(T, error)` become `Except ExecError T`.
* Wall-clock durations are not modelled (no claim mentions them), and the
  prompt strings handed to the external agent are threaded only where a
  claim depends on them, since agent behaviour is an oracle anyway.
-/

/-- Substring test on character lists: does the second list contain the
first as a contiguous substring?  Models Go `strings.Contains`.
`listHasSub [] l = true`, matching Go. -/
def listHasSub (needle : List Char) : List Char → Bool
  | [] => needle.isEmpty
  | c :: t => needle.isPrefixOf (c :: t) || listHasSub needle t

/-- Go `strings.Contains hay needle`. -/
def containsSub (hay needle : String) : Bool :=
  listHasSub needle.toList hay.toList

/-- Go `strings.ToLower` (the strings scanned by the code are ASCII). -/
def strToLower (s : String) : String :=
  ⟨s.toList.map Char.toLower⟩

/-! ## Task executor (`executor.go`) -/

/-- Go `executor.TaskResult` (the `Duration` field is not modelled). -/
structure TaskResult where
  taskID : String
  role : String
  agent : String
  success : Bool
  output : String
  error : String
  retries : Nat
deriving DecidableEq, Repr

/-- One call of the agent adapter `adp.Run`: either a transport error
(`err != nil` in Go) or a run that completed with the given
success/output/error triple (`adpResult`). -/
inductive AttemptOutcome where
  | transportErr (msg : String)
  | ran (success : Bool) (output : String) (errText : String)
deriving DecidableEq, Repr

/-- Whether the attempt invoked the adapter without a transport error. -/
def AttemptOutcome.isRan : AttemptOutcome → Bool
  | .transportErr _ => false
  | .ran _ _ _ => true

/-- Whether the attempt counts as a failure for the retry loop. -/
def AttemptOutcome.isFail : AttemptOutcome → Bool
  | .transportErr _ => true
  | .ran success _ _ => !success

/-- Go `config.RoleConfig` (the `PromptFile` field is config-loading
machinery with no bearing on any claim). -/
structure RoleConfig where
  agent : String
deriving DecidableEq, Repr

/-- Go `config.AgentConfig`, reduced to the field `createAdapter`
dispatches on. -/
structure AgentConfig where
  command : String
deriving DecidableEq, Repr

/-- The slice of `config.Config` plus `Executor` fields that
`RunSingleTask` reads (`cfg.Roles`, `cfg.Agents`, `e.maxRetries`). -/
structure ExecConfig where
  roles : List (String × RoleConfig)
  agents : List (String × AgentConfig)
  maxRetries : Nat

/-- Go `Executor.createAdapter` returns a non-nil adapter exactly for the
commands `claude` and `codex` (default branch returns nil). -/
def createAdapterOk (a : AgentConfig) : Bool :=
  a.command == "claude" || a.command == "codex"

/-- The non-nil `error` returns of `RunSingleTask`. -/
inductive ExecError where
  | unknownRole (role : String)
  | unknownAgent (agent : String)
  | adapterNil (agent : String)
  | ctxDone (msg : String)
deriving DecidableEq, Repr

/-- The `err.Error()` text of each `ExecError`, as produced by the Go
`fmt.Errorf` calls (resp. `ctx.Err().Error()`). -/
def execErrMsg : ExecError → String
  | .unknownRole r => "unknown role: " ++ r
  | .unknownAgent a => "unknown agent: " ++ a
  | .adapterNil a => "failed to create adapter for agent: " ++ a
  | .ctxDone m => m

/-- Classifies the configuration errors (unknown role/agent, nil adapter)
as opposed to the context-cancellation error return. -/
def ExecError.isConfig : ExecError → Bool
  | .unknownRole _ => true
  | .unknownAgent _ => true
  | .adapterNil _ => true
  | .ctxDone _ => false

/-- Return value of `RunSingleTask` together with the number of adapter
invocations it made (`attemptsMade`), which claim C1 counts. -/
structure SingleOut where
  ret : Except ExecError TaskResult
  attemptsMade : Nat
deriving Repr

/-- The retry loop of `RunSingleTask` (`for attempt := 0; attempt <=
e.maxRetries; attempt++`).  `fuel` is the number of loop iterations left
(`maxRetries + 1 - attempt`); `result`/`lastErr` are the Go locals of the
same names (`lastErr.getD ""` models dereferencing `lastErr`, which in Go
is always non-nil when read).  When `fuel` is `0` the loop has exhausted
all attempts and the code after the loop runs: return `result` if any
attempt ran, else the synthesized failing result with
`Retries = maxRetries`. -/
def attemptLoop (oracle : Nat → AttemptOutcome) (ctxErr : Nat → Option String)
    (taskID role agent : String) (maxRetries : Nat) :
    Nat → Nat → Option TaskResult → Option String → SingleOut
  | 0, _, result, lastErr =>
    ⟨.ok (match result with
          | some r => r
          | none =>
            { taskID, role, agent, success := false, output := "",
              error := lastErr.getD "", retries := maxRetries }), 0⟩
  | fuel + 1, attempt, result, _lastErr =>
    match (if attempt == 0 then none else ctxErr attempt) with
    | some msg => ⟨.error (.ctxDone msg), 0⟩
    | none =>
      match oracle attempt with
      | .transportErr msg =>
        let o := attemptLoop oracle ctxErr taskID role agent maxRetries
          fuel (attempt + 1) result (some msg)
        ⟨o.ret, o.attemptsMade + 1⟩
      | .ran success output errText =>
        let r : TaskResult :=
          { taskID, role, agent, success, output, error := errText,
            retries := attempt }
        if success then ⟨.ok r, 1⟩
        else
          let o := attemptLoop oracle ctxErr taskID role agent maxRetries
            fuel (attempt + 1) (some r) (some errText)
          ⟨o.ret, o.attemptsMade + 1⟩

/-- Go `Executor.RunSingleTask`, also reporting the number of adapter
invocations.  The `prompt` and `cwd` arguments only flow into the adapter
call, which the oracle models, so they are not parameters here. -/
def runSingleTaskFull (cfg : ExecConfig) (oracle : Nat → AttemptOutcome)
    (ctxErr : Nat → Option String) (role taskID : String) : SingleOut :=
  match cfg.roles.lookup role with
  | none => ⟨.error (.unknownRole role), 0⟩
  | some rc =>
    match cfg.agents.lookup rc.agent with
    | none => ⟨.error (.unknownAgent rc.agent), 0⟩
    | some ac =>
      if createAdapterOk ac then
        attemptLoop oracle ctxErr taskID role rc.agent cfg.maxRetries
          (cfg.maxRetries + 1) 0 none none
      else ⟨.error (.adapterNil rc.agent), 0⟩

/-- Go `Executor.RunSingleTask` (the `(*TaskResult, error)` view). -/
def runSingleTask (cfg : ExecConfig) (oracle : Nat → AttemptOutcome)
    (ctxErr : Nat → Option String) (role taskID : String) :
    Except ExecError TaskResult :=
  (runSingleTaskFull cfg oracle ctxErr role taskID).ret

/-- Go `executor.Task` (named `ExecTask` here because `Task` is taken by
the Lean core library). -/
structure ExecTask where
  id : String
  role : String
  prompt : String
deriving DecidableEq, Repr

/-- The adapter/context oracles for one task of a parallel batch. -/
structure TaskEnv where
  oracle : Nat → AttemptOutcome
  ctxErr : Nat → Option String

/-- The body of a `RunParallelTasks` worker for one task: call
`RunSingleTask` and convert a non-nil error into a synthesized failing
`TaskResult` (Go lines building `&TaskResult{TaskID: task.ID, ...}`). -/
def workerResult (cfg : ExecConfig) (env : ExecTask → TaskEnv)
    (t : ExecTask) : TaskResult :=
  match runSingleTask cfg (env t).oracle (env t).ctxErr t.role t.id with
  | .ok r => r
  | .error e =>
    { taskID := t.id, role := t.role, agent := "", success := false,
      output := "", error := execErrMsg e, retries := 0 }

/-- Lookup in the Go `resultMap`: results are inserted in completion
order and a later insertion with the same `TaskID` overwrites an earlier
one, so lookup returns the last matching element of the completion-order
list. -/
def lookupLast (m : List TaskResult) (id : String) : Option TaskResult :=
  match m with
  | [] => none
  | r :: rest =>
    match lookupLast rest id with
    | some x => some x
    | none => if r.taskID == id then some r else none

/-- The failure result `RunParallelTasks` synthesizes for an input task
whose ID is missing from `resultMap`. -/
def synthMissing (t : ExecTask) : TaskResult :=
  { taskID := t.id, role := t.role, agent := "", success := false,
    output := "", error := "result not found", retries := 0 }

/-- The final correlation loop of `RunParallelTasks`: one output slot per
input task, filled from `resultMap` by task ID or synthesized. -/
def gatherResults (tasks : List ExecTask) (collected : List TaskResult) :
    List TaskResult :=
  tasks.map fun t => (lookupLast collected t.id).getD (synthMissing t)

/-- Go `Executor.RunParallelTasks`.  `collected` is the contents of
`resultChan` in completion order; theorems quantify over every
`collected` that is a permutation of the per-task worker results, which
models the arbitrary interleaving of the worker pool. -/
def runParallelTasks (tasks : List ExecTask) (collected : List TaskResult) :
    List TaskResult :=
  if tasks.isEmpty then [] else gatherResults tasks collected

/-! ## JSON values

`encoding/json` is Go standard library, so it is modelled here: a value
AST, a printer modelling `json.Marshal` (compact output, HTML escaping on,
as Go defaults), and a fuel-indexed recursive-descent parser modelling
`json.Unmarshal`'s grammar (numbers are kept as lexemes — no claim
computes with them; lone-surrogate `\u` escapes, which Go replaces with
U+FFFD, are parse errors here). -/

inductive JsonVal where
  | jnull
  | jbool (b : Bool)
  | jnum (lexeme : String)
  | jstr (s : String)
  | jarr (elems : List JsonVal)
  | jobj (fields : List (String × JsonVal))
deriving Repr, Inhabited

/-- A lowercase hex digit, as Go's `encoding/json` emits. -/
def hexDigitChar (n : Nat) : Char :=
  if n < 10 then Char.ofNat ('0'.toNat + n) else Char.ofNat ('a'.toNat + n - 10)

/-- Go `encoding/json` string escaping for one character (with the
default HTML escaping of `<`, `>`, `&`). -/
def escChar (c : Char) : List Char :=
  if c = '\\' then ['\\', '\\']
  else if c = '"' then ['\\', '"']
  else if c = '\n' then ['\\', 'n']
  else if c = '\r' then ['\\', 'r']
  else if c = '\t' then ['\\', 't']
  else if c.toNat < 0x20 || c = '<' || c = '>' || c = '&' then
    ['\\', 'u', '0', '0', hexDigitChar (c.toNat / 16), hexDigitChar (c.toNat % 16)]
  else if c.toNat = 0x2028 then ['\\', 'u', '2', '0', '2', '8']
  else if c.toNat = 0x2029 then ['\\', 'u', '2', '0', '2', '9']
  else [c]

/-- The escaped body of a JSON string literal. -/
def escStr (s : String) : List Char :=
  (s.toList.map escChar).flatten

/-- A complete JSON string literal. -/
def printStr (s : String) : List Char :=
  '"' :: escStr s ++ ['"']

mutual

/-- Compact printing of a JSON value (Go `json.Marshal`). -/
def printVal : JsonVal → List Char
  | .jnull => ['n', 'u', 'l', 'l']
  | .jbool true => ['t', 'r', 'u', 'e']
  | .jbool false => ['f', 'a', 'l', 's', 'e']
  | .jnum lexeme => lexeme.toList
  | .jstr s => printStr s
  | .jarr xs => '[' :: printElems xs ++ [']']
  | .jobj fs => '{' :: printFields fs ++ ['}']

/-- Comma-separated array elements. -/
def printElems : List JsonVal → List Char
  | [] => []
  | [x] => printVal x
  | x :: y :: rest => printVal x ++ ',' :: printElems (y :: rest)

/-- Comma-separated `"key":value` object fields. -/
def printFields : List (String × JsonVal) → List Char
  | [] => []
  | [(k, v)] => printStr k ++ ':' :: printVal v
  | (k, v) :: f :: rest => printStr k ++ ':' :: printVal v ++ ',' :: printFields (f :: rest)

end

/-- JSON insignificant whitespace (RFC 8259, as Go's scanner skips). -/
def isJWs (c : Char) : Bool :=
  c = ' ' || c = '\t' || c = '\n' || c = '\r'

/-- Skip insignificant whitespace. -/
def skipWs (l : List Char) : List Char :=
  l.dropWhile isJWs

/-- Value of a hex digit. -/
def hexVal (c : Char) : Option Nat :=
  if '0' ≤ c ∧ c ≤ '9' then some (c.toNat - '0'.toNat)
  else if 'a' ≤ c ∧ c ≤ 'f' then some (c.toNat - 'a'.toNat + 10)
  else if 'A' ≤ c ∧ c ≤ 'F' then some (c.toNat - 'A'.toNat + 10)
  else none

/-- The single-character JSON escapes. -/
def escCharOf : Char → Option Char
  | '"' => some '"'
  | '\\' => some '\\'
  | '/' => some '/'
  | 'b' => some (Char.ofNat 8)
  | 'f' => some (Char.ofNat 12)
  | 'n' => some '\n'
  | 'r' => some '\r'
  | 't' => some '\t'
  | _ => none

/-- Parse the body of a JSON string literal (opening quote already
consumed); returns the decoded characters and the input after the
closing quote. -/
def parseStringBody : List Char → Option (List Char × List Char)
  | [] => none
  | c :: rest =>
    if c = '"' then some ([], rest)
    else if c = '\\' then
      match rest with
      | [] => none
      | e :: rest2 =>
        if e = 'u' then
          match rest2 with
          | h1 :: h2 :: h3 :: h4 :: rest3 =>
            (match hexVal h1, hexVal h2, hexVal h3, hexVal h4 with
             | some a, some b, some cc, some d =>
               let n := ((a * 16 + b) * 16 + cc) * 16 + d
               if Nat.isValidChar n then
                 (parseStringBody rest3).map fun p => (Char.ofNat n :: p.1, p.2)
               else none
             | _, _, _, _ => none)
          | _ => none
        else
          match escCharOf e with
          | some c2 => (parseStringBody rest2).map fun p => (c2 :: p.1, p.2)
          | none => none
    else if c.toNat < 0x20 then none
    else (parseStringBody rest).map fun p => (c :: p.1, p.2)

/-- Lex the integer part of a JSON number (`0` or a nonzero-led digit
run). -/
def lexInt : List Char → Option (List Char × List Char)
  | '0' :: rest => some (['0'], rest)
  | c :: rest =>
    if c.isDigit then
      (match rest.span Char.isDigit with
       | (ds, r) => some (c :: ds, r))
    else none
  | [] => none

/-- Lex an optional fraction part. -/
def lexFrac : List Char → Option (List Char × List Char)
  | '.' :: rest =>
    (match rest.span Char.isDigit with
     | ([], _) => none
     | (ds, r) => some ('.' :: ds, r))
  | l => some ([], l)

/-- Lex an optional exponent part. -/
def lexExp : List Char → Option (List Char × List Char)
  | c :: rest =>
    if c = 'e' || c = 'E' then
      (match (match rest with
              | '+' :: r => ((['+'] : List Char), r)
              | '-' :: r => (['-'], r)
              | _ => ([], rest)) with
       | (sgn, r1) =>
         match r1.span Char.isDigit with
         | ([], _) => none
         | (ds, r2) => some (c :: sgn ++ ds, r2))
    else some ([], c :: rest)
  | [] => some ([], [])

/-- Lex a full JSON number, returning its lexeme. -/
def lexNumber (l : List Char) : Option (List Char × List Char) :=
  match (match l with
         | '-' :: r => ((['-'] : List Char), r)
         | _ => ([], l)) with
  | (neg, l1) =>
    match lexInt l1 with
    | none => none
    | some (ip, l2) =>
      match lexFrac l2 with
      | none => none
      | some (fp, l3) =>
        match lexExp l3 with
        | none => none
        | some (ep, l4) => some (neg ++ ip ++ fp ++ ep, l4)

mutual

/-- Parse one JSON value; returns it and the rest of the input right
after it.  `fuel` bounds the recursion (both nesting and element
chains); `parseJsonL` supplies enough for any input it can accept. -/
def parseVal : Nat → List Char → Option (JsonVal × List Char)
  | 0, _ => none
  | fuel + 1, l =>
    match skipWs l with
    | 'n' :: 'u' :: 'l' :: 'l' :: rest => some (.jnull, rest)
    | 't' :: 'r' :: 'u' :: 'e' :: rest => some (.jbool true, rest)
    | 'f' :: 'a' :: 'l' :: 's' :: 'e' :: rest => some (.jbool false, rest)
    | '"' :: rest => (parseStringBody rest).map fun (s, r) => (.jstr ⟨s⟩, r)
    | '[' :: rest =>
      (match skipWs rest with
       | ']' :: r => some (.jarr [], r)
       | l2 => (parseArrElems fuel l2).map fun (xs, r) => (.jarr xs, r))
    | '{' :: rest =>
      (match skipWs rest with
       | '}' :: r => some (.jobj [], r)
       | l2 => (parseObjFields fuel l2).map fun (fs, r) => (.jobj fs, r))
    | l1 => (lexNumber l1).map fun (lex, r) => (.jnum ⟨lex⟩, r)

/-- Parse a non-empty comma-separated element list followed by `]`. -/
def parseArrElems : Nat → List Char → Option (List JsonVal × List Char)
  | 0, _ => none
  | fuel + 1, l =>
    match parseVal fuel l with
    | none => none
    | some (v, rest) =>
      match skipWs rest with
      | ',' :: rest2 => (parseArrElems fuel rest2).map fun (xs, r) => (v :: xs, r)
      | ']' :: rest2 => some ([v], rest2)
      | _ => none

/-- Parse a non-empty comma-separated field list followed by `}`. -/
def parseObjFields : Nat → List Char → Option (List (String × JsonVal) × List Char)
  | 0, _ => none
  | fuel + 1, l =>
    match skipWs l with
    | '"' :: rest =>
      (match parseStringBody rest with
       | none => none
       | some (k, rest2) =>
         match skipWs rest2 with
         | ':' :: rest3 =>
           (match parseVal fuel rest3 with
            | none => none
            | some (v, rest4) =>
              match skipWs rest4 with
              | ',' :: rest5 =>
                (parseObjFields fuel rest5).map fun (fs, r) => ((⟨k⟩, v) :: fs, r)
              | '}' :: rest5 => some ([(⟨k⟩, v)], rest5)
              | _ => none)
         | _ => none)
    | _ => none

end

/-- Parse a complete JSON document: one value with only whitespace after
it (Go `json.Unmarshal` rejects trailing data). -/
def parseJsonL (l : List Char) : Option JsonVal :=
  match parseVal (l.length + 1) l with
  | some (v, rest) => if (skipWs rest).isEmpty then some v else none
  | none => none

/-! ## Plan values (`workflow/types.go`) and fenced-block extraction -/

/-- Go `workflow.Task` (named `PlanTask` here to avoid the clash with the
executor's `Task`). -/
structure PlanTask where
  id : String
  description : String
  files : List String
  acceptanceCriteria : List String
deriving DecidableEq, Repr

/-- Go `workflow.Spec`. -/
structure PlanSpec where
  file : String
  content : String
deriving DecidableEq, Repr

/-- Go `workflow.Plan`. -/
structure Plan where
  tasks : List PlanTask
  specs : List PlanSpec
deriving DecidableEq, Repr

/-- A JSON array of strings. -/
def encodeStrArr (l : List String) : JsonVal :=
  .jarr (l.map .jstr)

/-- `json.Marshal` of a `workflow.Task` as a JSON value: field order as
declared, `files`/`acceptance_criteria` tagged `omitempty` (dropped when
empty). -/
def encodeTask (t : PlanTask) : JsonVal :=
  .jobj ([("id", .jstr t.id), ("description", .jstr t.description)]
    ++ (if t.files.isEmpty then [] else [("files", encodeStrArr t.files)])
    ++ (if t.acceptanceCriteria.isEmpty then []
        else [("acceptance_criteria", encodeStrArr t.acceptanceCriteria)]))

/-- `json.Marshal` of a `workflow.Spec` as a JSON value. -/
def encodeSpec (s : PlanSpec) : JsonVal :=
  .jobj [("file", .jstr s.file), ("content", .jstr s.content)]

/-- `json.Marshal` of a `workflow.Plan` as a JSON value (`specs` is
`omitempty`). -/
def encodePlan (p : Plan) : JsonVal :=
  .jobj ([("tasks", .jarr (p.tasks.map encodeTask))]
    ++ (if p.specs.isEmpty then [] else [("specs", .jarr (p.specs.map encodeSpec))]))

/-- The serialized JSON text of a Plan, in the documented shape. -/
def marshalPlan (p : Plan) : List Char :=
  printVal (encodePlan p)

/-- The last field of a JSON object whose key satisfies `pred`
(`json.Unmarshal` assigns object keys to struct fields sequentially, so
the last matching key wins). -/
def lookupLastStr (fs : List (String × JsonVal)) (pred : String → Bool) :
    Option JsonVal :=
  match fs with
  | [] => none
  | (k, v) :: rest =>
    match lookupLastStr rest pred with
    | some x => some x
    | none => if pred k then some v else none

/-- Field lookup with Go's key matching: a key matches a struct field
name exactly or case-insensitively. -/
def fieldLookup (fs : List (String × JsonVal)) (name : String) : Option JsonVal :=
  lookupLastStr fs fun k => k == name || strToLower k == strToLower name

/-- `json.Unmarshal` of a JSON value into a `string` field: strings
decode, `null` leaves the zero value, anything else is a type error. -/
def decodeStr : JsonVal → Option String
  | .jstr s => some s
  | .jnull => some ""
  | _ => none

/-- `json.Unmarshal` into a `[]string` field. -/
def decodeStrList : JsonVal → Option (List String)
  | .jnull => some []
  | .jarr xs => xs.mapM decodeStr
  | _ => none

/-- Decode one field of a struct: a missing field keeps the zero value
`dflt`. -/
def decodeField {α : Type} (fs : List (String × JsonVal)) (name : String)
    (dec : JsonVal → Option α) (dflt : α) : Option α :=
  match fieldLookup fs name with
  | none => some dflt
  | some v => dec v

/-- `json.Unmarshal` into a `workflow.Task`. -/
def decodeTask : JsonVal → Option PlanTask
  | .jobj fs => do
    let id ← decodeField fs "id" decodeStr ""
    let description ← decodeField fs "description" decodeStr ""
    let files ← decodeField fs "files" decodeStrList []
    let acceptanceCriteria ← decodeField fs "acceptance_criteria" decodeStrList []
    pure ⟨id, description, files, acceptanceCriteria⟩
  | .jnull => some ⟨"", "", [], []⟩
  | _ => none

/-- `json.Unmarshal` into a `workflow.Spec`. -/
def decodeSpec : JsonVal → Option PlanSpec
  | .jobj fs => do
    let file ← decodeField fs "file" decodeStr ""
    let content ← decodeField fs "content" decodeStr ""
    pure ⟨file, content⟩
  | .jnull => some ⟨"", ""⟩
  | _ => none

/-- `json.Unmarshal` into `[]Task`. -/
def decodeTaskList : JsonVal → Option (List PlanTask)
  | .jnull => some []
  | .jarr xs => xs.mapM decodeTask
  | _ => none

/-- `json.Unmarshal` into `[]Spec`. -/
def decodeSpecList : JsonVal → Option (List PlanSpec)
  | .jnull => some []
  | .jarr xs => xs.mapM decodeSpec
  | _ => none

/-- `json.Unmarshal` of a document into a `workflow.Plan` (unknown
fields ignored; a top-level `null` leaves the zero Plan). -/
def decodePlan : JsonVal → Option Plan
  | .jobj fs => do
    let tasks ← decodeField fs "tasks" decodeTaskList []
    let specs ← decodeField fs "specs" decodeSpecList []
    pure ⟨tasks, specs⟩
  | .jnull => some ⟨[], []⟩
  | _ => none

/-- Does the input start with the literal ` ``` ` fence? -/
def isFence (l : List Char) : Bool :=
  (['`', '`', '`'] : List Char).isPrefixOf l

/-- RE2 `\s` (Go regexp): `[\t\n\f\r ]`. -/
def isGoWs (c : Char) : Bool :=
  c = '\t' || c = '\n' || c = Char.ofNat 12 || c = '\r' || c = ' '

/-- The greedy optional `(?:json)?` right after the opening fence. -/
def dropJsonTag : List Char → List Char
  | 'j' :: 's' :: 'o' :: 'n' :: rest => rest
  | l => l

/-- The lazy capture `([\s\S]*?)` followed by `\n?` ``` ` ``` of the
plan-extraction regex: the shortest split of the input into
`capture ++ close` where `close` is the closing fence, optionally led by
a newline that the `\n?` consumes (so it is excluded from the capture). -/
def splitClose : List Char → Option (List Char × List Char)
  | [] => none
  | c :: rest =>
    if isFence (c :: rest) then some ([], c :: rest)
    else if c = '\n' && isFence rest then some ([], rest)
    else
      match splitClose rest with
      | some (cap, r) => some (c :: cap, r)
      | none => none

/-- Try to complete a regex match whose opening ` ``` ` was just
consumed: `(?:json)?\s*\n?` then the lazy capture up to the closing
fence.  (The greedy `\s*` subsumes the following `\n?`; backtracking
over `(?:json)?`/`\s*` cannot turn a failure into a success because the
characters they consume are never backticks, so the set of reachable
closing fences is unchanged.) -/
def tryFenceMatch (l : List Char) : Option (List Char) :=
  (splitClose ((dropJsonTag l).dropWhile isGoWs)).map Prod.fst

/-- The capture group of the first (leftmost) match of the Go regex
`(?s)` ``` `(?:json)?\s*\n?([\s\S]*?)\n?` ``` against the input, or
`none` if the regex does not match: try every start position from the
left; a match can only start at a ` ``` `. -/
def extractFenced : List Char → Option (List Char)
  | [] => none
  | c :: rest =>
    if isFence (c :: rest) then
      match tryFenceMatch (rest.drop 2) with
      | some cap => some cap
      | none => extractFenced rest
    else extractFenced rest

/-- The `jsonStr` both `ParsePlan` and `Engine.parsePlan` feed to
`json.Unmarshal`: the first fenced block's capture if the regex matched,
the whole output otherwise. -/
def jsonCandidate (output : List Char) : List Char :=
  match extractFenced output with
  | some cap => cap
  | none => output

/-- Go `workflow.ParsePlan` (`types.go`): extract the candidate JSON,
unmarshal it into a `Plan`; `none` models the non-nil error return
(invalid plan JSON).  Total by construction — no panic. -/
def goParsePlan (output : List Char) : Option Plan :=
  match parseJsonL (jsonCandidate output) with
  | none => none
  | some v => decodePlan v

/-- `json.Unmarshal` into `map[string]any` (the engine's plan): an
object yields a map, a top-level `null` yields a nil map, anything else
is a type error. -/
def decodeAnyMap : JsonVal → Option (Option (List (String × JsonVal)))
  | .jobj fs => some (some fs)
  | .jnull => some none
  | _ => none

/-- Go `Engine.parsePlan` (`workflow.go`): parse the step output and
replace `e.plan` on success; on any parse/unmarshal error the previous
plan is kept. -/
def enginePlanUpdate (output : List Char)
    (plan : Option (List (String × JsonVal))) :
    Option (List (String × JsonVal)) :=
  match parseJsonL (jsonCandidate output) with
  | none => plan
  | some v =>
    match decodeAnyMap v with
    | none => plan
    | some m => m

/-! ## Workflow engine (`workflow.go`)

The engine treats the executor as a collaborator: `EngOracle.single n`
is the `(*TaskResult, error)` that `e.exec.RunSingleTask` returns for
the engine's `n`-th task invocation, and `EngOracle.par n ts` what
`e.exec.RunParallelTasks` returns for the task batch `ts`.  Prompt
strings built by `buildPrompt` flow only into those calls, whose results
the oracle already fixes, so `buildPrompt` is not modelled;
`buildTaskPrompt` is modelled because `executePerTask` feeds its result
into the `Task` values whose IDs and count the claims mention. -/

/-- Go `config.WorkflowStep`. -/
structure WorkflowStep where
  role : String
  output : String := ""
  input : String := ""
  onFail : String := ""
  onSuccess : String := ""
  perTask : Bool := false
deriving DecidableEq, Repr

/-- Go `workflow.StepResult` (the `Duration` field is not modelled). -/
structure StepResult where
  stepIndex : Nat
  role : String
  success : Bool
  output : String
  error : String
  taskResults : List TaskResult
  jumpTarget : String
deriving DecidableEq, Repr

/-- Go `workflow.checkVerdict`, mirroring its early-return control flow. -/
def checkVerdict (output : String) : Bool :=
  let lower := strToLower output
  if containsSub lower "\"verdict\"" &&
      (containsSub lower "\"approved\"" || containsSub lower "\"passed\"") then
    true
  else if containsSub lower "\"verdict\"" &&
      (containsSub lower "\"needs_revision\"" || containsSub lower "\"failed\"") then
    false
  else if containsSub lower "approved" || containsSub lower "passed" then
    true
  else if containsSub lower "needs_revision" || containsSub lower "failed" then
    false
  else
    true

/-- Go map assignment `m[k] = v` for the engine's `outputs` map, as an
association list with a single binding per key (`List.lookup` reads). -/
def setOutput (m : List (String × String)) (k v : String) :
    List (String × String) :=
  (k, v) :: m.eraseP (fun p => p.1 == k)

/-- Go `Engine.executeSingle`, given the executor's return value. -/
def executeSingle (res : Except ExecError TaskResult) (idx : Nat)
    (step : WorkflowStep) : StepResult :=
  match res with
  | .error e => ⟨idx, step.role, false, "", execErrMsg e, [], ""⟩
  | .ok tr =>
    let success :=
      if tr.success && (step.role == "plan_validator" || step.role == "code_reviewer")
      then checkVerdict tr.output
      else tr.success
    ⟨idx, step.role, success, tr.output, tr.error, [tr], ""⟩

/-- Go map indexing `m[k]` for the engine's plan (`map[string]any` built
by `json.Unmarshal`, where a duplicate key's last occurrence wins). -/
def getPlanField (plan : List (String × JsonVal)) (k : String) : Option JsonVal :=
  lookupLastStr plan (· == k)

/-- The task ID `executePerTask` uses for plan entry `i`:
`task["id"].(string)`, with `"task%d"` (1-based) as the default for a
missing/non-string/empty ID. -/
def taskIdOf (i : Nat) (fs : List (String × JsonVal)) : String :=
  match getPlanField fs "id" with
  | some (.jstr s) => if s == "" then "task" ++ toString (i + 1) else s
  | _ => "task" ++ toString (i + 1)

/-- Go `Engine.buildTaskPrompt`. -/
def buildTaskPrompt (plan fs : List (String × JsonVal)) : String :=
  let lines :=
    (match getPlanField fs "id" with
     | some (.jstr s) => ["Task ID: " ++ s]
     | _ => []) ++
    (match getPlanField fs "description" with
     | some (.jstr s) => ["Description: " ++ s]
     | _ => []) ++
    (match getPlanField fs "files" with
     | some (.jarr xs) =>
       ["Files: " ++ String.intercalate ", "
         (xs.filterMap fun v => match v with | .jstr s => some s | _ => none)]
     | _ => []) ++
    (match getPlanField fs "acceptance_criteria" with
     | some (.jarr xs) =>
       "Acceptance Criteria:" ::
         (xs.filterMap fun v => match v with | .jstr s => some ("  - " ++ s) | _ => none)
     | _ => []) ++
    (match getPlanField plan "specs" with
     | some (.jarr xs) =>
       "\nRelevant Specs:" ::
         (xs.filterMap fun v =>
           match v with
           | .jobj sf =>
             let file := match getPlanField sf "file" with
               | some (.jstr s) => s
               | _ => ""
             let content := match getPlanField sf "content" with
               | some (.jstr s) => s
               | _ => ""
             some ("--- " ++ file ++ " ---\n" ++ content)
           | _ => none)
     | _ => [])
  String.intercalate "\n" lines

/-- Go `Engine.executePerTask`, given the plan map (the caller has
already checked `e.plan != nil`) and the executor's parallel entry point
for this invocation. -/
def executePerTask (par : List ExecTask → List TaskResult) (idx : Nat)
    (step : WorkflowStep) (plan : List (String × JsonVal)) : StepResult :=
  match getPlanField plan "tasks" with
  | some (.jarr tasks) =>
    if tasks.isEmpty then ⟨idx, step.role, false, "", "no tasks in plan", [], ""⟩
    else
      let execTasks := tasks.enum.filterMap fun it =>
        match it.2 with
        | .jobj fs => some (⟨taskIdOf it.1 fs, step.role, buildTaskPrompt plan fs⟩ : ExecTask)
        | _ => none
      let results := par execTasks
      let allSuccess := results.all (·.success)
      let outs := results.filterMap fun r => if r.output == "" then none else some r.output
      let errs := results.filterMap fun r =>
        if !r.success && r.error != "" then some r.error else none
      ⟨idx, step.role, allSuccess, String.intercalate "\n---\n" outs,
        String.intercalate "; " errs, results, ""⟩
  | _ => ⟨idx, step.role, false, "", "no tasks in plan", [], ""⟩

/-- The engine's mutable per-run data: the `outputs` map and the current
plan (`nil` plan = `none`). -/
structure EngineState where
  outputs : List (String × String)
  plan : Option (List (String × JsonVal))

/-- Executor collaborator as seen by the engine, indexed by the engine's
invocation count. -/
structure EngOracle where
  single : Nat → Except ExecError TaskResult
  par : Nat → List ExecTask → List TaskResult

/-- Go `Engine.executeStep` (invocation index `n`): mode dispatch, output
bookkeeping and plan extraction, then the post-hoc jump directive. -/
def executeStep (orc : EngOracle) (n idx : Nat) (step : WorkflowStep)
    (st : EngineState) : StepResult × EngineState :=
  let result :=
    if step.perTask && st.plan.isSome then
      executePerTask (orc.par n) idx step (st.plan.getD [])
    else
      executeSingle (orc.single n) idx step
  let st1 :=
    if step.output != "" && result.success then
      let o := setOutput st.outputs step.output result.output
      if step.output == "plan.json" then
        ⟨o, enginePlanUpdate result.output.toList st.plan⟩
      else
        ⟨o, st.plan⟩
    else st
  let result1 :=
    if !result.success && step.onFail != "" then { result with jumpTarget := step.onFail }
    else if result.success && step.onSuccess != "" then { result with jumpTarget := step.onSuccess }
    else result
  (result1, st1)

/-- The engine as built by `workflow.New`: the step list and the
first-occurrence role-to-index map. -/
structure WEngine where
  steps : List WorkflowStep
  roleStep : List (String × Nat)

/-- The `roleStep` map `workflow.New` builds (first occurrence wins). -/
def mkRoleStep (steps : List WorkflowStep) : List (String × Nat) :=
  steps.enum.foldl
    (fun m is => if (m.lookup is.2.role).isSome then m else m ++ [(is.2.role, is.1)])
    []

/-- Go `workflow.New` (the pieces the claims depend on). -/
def mkEngine (steps : List WorkflowStep) : WEngine :=
  ⟨steps, mkRoleStep steps⟩

/-- Go `Engine.resolveJump`: a `goto:<role>` target resolves to the
first step index registered for `<role>` (`strings.HasPrefix` /
`strings.TrimPrefix` expressed on character lists). -/
def resolveJump (eng : WEngine) (target : String) : Option Nat :=
  if "goto:".toList.isPrefixOf target.toList then
    eng.roleStep.lookup ⟨target.toList.drop 5⟩
  else none

/-- One `saveState` call as recorded by the model: the `currentStep`
value passed, the number of accumulated step results, and the plan and
outputs snapshots handed to the session store. -/
structure Checkpoint where
  currentStep : Nat
  resultsLen : Nat
  plan : Option (List (String × JsonVal))
  outputs : List (String × String)

/-- The run-loop state of `Engine.Run` plus the trace the theorems
inspect (`results` = the accumulated `StepResult`s, `checkpoints` = the
`saveState` calls in order). -/
structure RunState where
  currentStep : Nat
  visits : List (Nat × Nat)
  st : EngineState
  results : List StepResult
  checkpoints : List Checkpoint

/-- Read of the `visits` map (missing key = 0, as for a Go map). -/
def visitsGet (v : List (Nat × Nat)) (i : Nat) : Nat :=
  (v.lookup i).getD 0

/-- Go `visits[currentStep]++`. -/
def visitsIncr (v : List (Nat × Nat)) (i : Nat) : List (Nat × Nat) :=
  (i, visitsGet v i + 1) :: v.eraseP (fun p => p.1 == i)

/-- Go `workflow.Result` (durations and the step-result slice, which the
model keeps in `RunState.results`, are not duplicated here). -/
structure RunResult where
  success : Bool
  stepsCompleted : Nat
  totalSteps : Nat
  finalOutput : String
  error : String
deriving DecidableEq, Repr

/-- The loop-guard failure message
`fmt.Sprintf("max loops (%d) exceeded at step %d", maxLoops, currentStep+1)`. -/
def guardMsg (maxLoops cur : Nat) : String :=
  "max loops (" ++ toString maxLoops ++ ") exceeded at step " ++ toString (cur + 1)

/-- The `for currentStep < len(e.steps)` loop of `Engine.Run`.  `fuel`
bounds the iterations so the model is total; `none` means the fuel ran
out before the loop terminated. -/
def runLoop (eng : WEngine) (orc : EngOracle) (maxLoops : Nat) :
    Nat → RunState → Option (RunResult × RunState)
  | 0, _ => none
  | fuel + 1, rs =>
    if h : rs.currentStep < eng.steps.length then
      let v := visitsGet rs.visits rs.currentStep + 1
      let rs1 : RunState := { rs with visits := visitsIncr rs.visits rs.currentStep }
      if v > maxLoops then
        some (⟨false, rs1.results.length, eng.steps.length, "",
               guardMsg maxLoops rs.currentStep⟩, rs1)
      else
        let step := eng.steps.get ⟨rs.currentStep, h⟩
        let out := executeStep orc rs1.results.length rs.currentStep step rs1.st
        let rs2 : RunState :=
          { rs1 with
            st := out.2
            results := rs1.results ++ [out.1]
            checkpoints := rs1.checkpoints ++
              [⟨rs.currentStep, rs1.results.length + 1, out.2.plan, out.2.outputs⟩] }
        match (if out.1.jumpTarget != "" then resolveJump eng out.1.jumpTarget else none) with
        | some target => runLoop eng orc maxLoops fuel { rs2 with currentStep := target }
        | none =>
          if out.1.success then
            runLoop eng orc maxLoops fuel { rs2 with currentStep := rs.currentStep + 1 }
          else
            some (⟨false, rs2.results.length, eng.steps.length, "", out.1.error⟩, rs2)
    else
      some (⟨true, rs.results.length, eng.steps.length,
             (rs.st.outputs.lookup "final").getD "", ""⟩, rs)

/-- Go `Engine.Run`: the zero-step early return (before `e.outputs` is
touched and before any checkpoint) and otherwise the loop from step 0
with `e.outputs["initial_prompt"] = initialPrompt` set. -/
def run (eng : WEngine) (orc : EngOracle) (initialPrompt : String)
    (maxLoops fuel : Nat) (init : EngineState) : Option (RunResult × RunState) :=
  if eng.steps.length == 0 then
    some (⟨false, 0, 0, "", "no workflow steps defined"⟩, ⟨0, [], init, [], []⟩)
  else
    runLoop eng orc maxLoops fuel
      ⟨0, [], ⟨setOutput init.outputs "initial_prompt" initialPrompt, init.plan⟩, [], []⟩

/-! ## Session store cleanup (`session/database.go`) -/

/-- Go `session.Status`. -/
inductive SessStatus where
  | active
  | completed
  | failed
  | interrupted
deriving DecidableEq, Repr

/-- The columns of a `sessions` row that `CleanupOldSessions` reads.
`updatedAt` is an abstract instant on an integer timeline: the stored
RFC3339 strings in a fixed format compare lexicographically exactly as
their instants compare. -/
structure SessionRow where
  id : String
  status : SessStatus
  updatedAt : Int
deriving DecidableEq, Repr

/-- The terminal statuses, `status IN ('completed', 'failed')`. -/
def isTerminal : SessStatus → Bool
  | .completed => true
  | .failed => true
  | .active => false
  | .interrupted => false

/-- The cutoff instant `time.Now().AddDate(0, 0, -retentionDays)` (the
timeline unit is one day). -/
def cutoffOf (now retentionDays : Int) : Int :=
  now - retentionDays

/-- Whether `DELETE FROM sessions WHERE updated_at < ? AND status IN
(?, ?)` keeps the row. -/
def cleanupKeeps (cutoff : Int) (r : SessionRow) : Bool :=
  !(decide (r.updatedAt < cutoff) && isTerminal r.status)

/-- Go `Database.CleanupOldSessions`: the rows remaining after the
delete, and the affected-row count it returns. -/
def cleanupOldSessions (cutoff : Int) (rows : List SessionRow) :
    List SessionRow × Nat :=
  (rows.filter (cleanupKeeps cutoff),
   (rows.filter (fun r => !cleanupKeeps cutoff r)).length)

/-! ## Support definitions used by the theorems -/

/-- The verdict policy as the specification words it (§4.2 step 5 /
claim C6): the quoted-token check when a quoted `"verdict"` is present,
falling back to bare keyword presence, defaulting to `true`. -/
def verdictSpec (output : String) : Bool :=
  let lower := strToLower output
  if containsSub lower "\"verdict\"" then
    if containsSub lower "\"approved\"" || containsSub lower "\"passed\"" then true
    else if containsSub lower "\"needs_revision\"" || containsSub lower "\"failed\"" then false
    else if containsSub lower "approved" || containsSub lower "passed" then true
    else if containsSub lower "needs_revision" || containsSub lower "failed" then false
    else true
  else
    if containsSub lower "approved" || containsSub lower "passed" then true
    else if containsSub lower "needs_revision" || containsSub lower "failed" then false
    else true

/-- No verdict keyword occurs in the output at all (case-insensitively,
in bare form — hence in no form). -/
def keywordFree (output : String) : Bool :=
  let lower := strToLower output
  !(containsSub lower "approved" || containsSub lower "passed" ||
    containsSub lower "needs_revision" || containsSub lower "failed")

/-- The largest index `n` in `[lo, lo + len)` whose attempt ran (no
transport error), if any: the attempt whose `TaskResult` the retry loop
still holds when it exhausts all attempts. -/
def lastRanIn (oracle : Nat → AttemptOutcome) : Nat → Nat → Option Nat
  | _, 0 => none
  | lo, len + 1 =>
    match lastRanIn oracle (lo + 1) len with
    | some m => some m
    | none => if (oracle lo).isRan then some lo else none

/-- The condition under which `executePerTask` fails with
`"no tasks in plan"`: `plan["tasks"]` is missing, not an array, or an
empty array. -/
def planTasksEmpty (plan : List (String × JsonVal)) : Bool :=
  match getPlanField plan "tasks" with
  | some (.jarr xs) => xs.isEmpty
  | _ => true

mutual

/-- Number of JSON nodes (used as parser fuel accounting). -/
def jsize : JsonVal → Nat
  | .jnull => 1
  | .jbool _ => 1
  | .jnum _ => 1
  | .jstr _ => 1
  | .jarr xs => 1 + jsizeList xs
  | .jobj fs => 1 + jsizeFields fs

/-- Node count of an element list. -/
def jsizeList : List JsonVal → Nat
  | [] => 0
  | x :: xs => 1 + jsize x + jsizeList xs

/-- Node count of a field list. -/
def jsizeFields : List (String × JsonVal) → Nat
  | [] => 0
  | f :: fs => 1 + jsize f.2 + jsizeFields fs

end

mutual

/-- No `jnum` node anywhere (number lexemes are the one constructor the
printer cannot round-trip in general; `encodePlan` never produces
them). -/
def numFree : JsonVal → Bool
  | .jnull => true
  | .jbool _ => true
  | .jnum _ => false
  | .jstr _ => true
  | .jarr xs => numFreeList xs
  | .jobj fs => numFreeFields fs

/-- `numFree` over an element list. -/
def numFreeList : List JsonVal → Bool
  | [] => true
  | x :: xs => numFree x && numFreeList xs

/-- `numFree` over a field list. -/
def numFreeFields : List (String × JsonVal) → Bool
  | [] => true
  | f :: fs => numFree f.2 && numFreeFields fs

end

/-- The three-backtick fence characters. -/
def fenceChars : List Char := ['`', '`', '`']

/-- Concrete executor configuration for counterexamples/witnesses:
role `r` is bound to agent `a`, which runs the `claude` command;
`maxRetries = 1`. -/
def cexCfg : ExecConfig :=
  ⟨[("r", ⟨"a"⟩)], [("a", ⟨"claude"⟩)], 1⟩

/-- Adapter oracle whose attempt 0 runs and reports failure and whose
attempt 1 is a transport error. -/
def cexOracle : Nat → AttemptOutcome :=
  fun n => if n == 0 then .ran false "out" "boom" else .transportErr "net"

/-- A context that is never cancelled. -/
def ctxNone : Nat → Option String :=
  fun _ => none

/-- A context that is observed cancelled from attempt 1's retry wait on. -/
def cancelCtx : Nat → Option String :=
  fun n => if n == 0 then none else some "context canceled"

/-- A plan whose description contains a full code fence — the
round-trip counterexample for claim C8. -/
def pbadPlan : Plan :=
  ⟨[⟨"a", "```x```", [], []⟩], []⟩

/-- A benign two-task plan for witnesses. -/
def pGoodPlan : Plan :=
  ⟨[⟨"t1", "do it", ["a.go"], ["passes"]⟩, ⟨"t2", "other", [], []⟩], [⟨"s.md", "spec text"⟩]⟩

/-- A stub engine oracle whose single runs always succeed. -/
def stubOracle : EngOracle :=
  ⟨fun _ => .ok ⟨"step1", "implementer", "a", true, "ok", "", 0⟩, fun _ _ => []⟩

/-- A stub engine oracle whose single runs always fail. -/
def stubFailOracle : EngOracle :=
  ⟨fun _ => .ok ⟨"step1", "fixer", "a", false, "", "bad", 0⟩, fun _ _ => []⟩

/-- Concrete parallel-batch fixtures for claim C2's witness. -/
def wTasks : List ExecTask :=
  [⟨"t1", "r", "p1"⟩, ⟨"t2", "r", "p2"⟩]

/-- Per-task adapter environment whose attempts all succeed. -/
def wEnv : ExecTask → TaskEnv :=
  fun _ => ⟨fun _ => .ran true "o" "", fun _ => none⟩

/-- Per-task environment whose context cancels from attempt 1's retry
wait on. -/
def cancelEnv : ExecTask → TaskEnv :=
  fun _ => ⟨cexOracle, cancelCtx⟩

/-- A step whose `onFail` jump targets its own role — claim C5's
self-loop scenario. -/
def selfStep : WorkflowStep :=
  ⟨"fixer", "", "", "goto:fixer", "", false⟩

/-- The one-step workflow built from `selfStep`. -/
def selfEngine : WEngine :=
  mkEngine [selfStep]

/-- Every single-task invocation of the oracle fails (either a returned
error or a result with `success = false`). -/
def singleFails (orc : EngOracle) : Prop :=
  ∀ n, match orc.single n with
       | .ok tr => tr.success = false
       | .error _ => True

/-! ## Helper lemmas -/

theorem listHasSub_iff (n : List Char) :
    ∀ l, listHasSub n l = true ↔ n <:+: l := by
  intro l
  induction l with
  | nil =>
    simp [listHasSub, List.isEmpty_iff, List.infix_nil]
  | cons c t ih =>
    simp [listHasSub, List.infix_cons_iff, List.isPrefixOf_iff_prefix, ih]

theorem containsSub_quoted (hay kw : String)
    (hq : ("\"" ++ kw ++ "\"").toList = '"' :: kw.toList ++ ['"'])
    (h : containsSub hay ("\"" ++ kw ++ "\"") = true) :
    containsSub hay kw = true := by
  unfold containsSub at h ⊢
  rw [listHasSub_iff] at h ⊢
  rw [hq] at h
  exact List.IsInfix.trans ⟨['"'], ['"'], by simp⟩ h

theorem lookupLast_taskID :
    ∀ (m : List TaskResult) (id : String) (r : TaskResult),
      lookupLast m id = some r → r.taskID = id := by
  intro m
  induction m with
  | nil => intro id r h; simp [lookupLast] at h
  | cons x rest ih =>
    intro id r h
    unfold lookupLast at h
    cases hr : lookupLast rest id with
    | some y =>
      rw [hr] at h
      obtain rfl : y = r := Option.some_inj.mp h
      exact ih id y hr
    | none =>
      rw [hr] at h
      by_cases hb : x.taskID == id
      · simp [hb] at h
        subst h
        exact eq_of_beq hb
      · simp [hb] at h

/-! ## Claim C9 -/

/-- Claim C9: `CleanupOldSessions` deletes only sessions whose status is
`completed` or `failed` and whose `updated_at` lies before the retention
cutoff; `active`/`interrupted` sessions survive regardless of age, and
no session outside the input appears in the result. -/
theorem c9_cleanup_only_old_terminal :
    ∀ (now retentionDays : Int) (rows : List SessionRow),
      (∀ r ∈ rows, r.status = .active ∨ r.status = .interrupted →
        r ∈ (cleanupOldSessions (cutoffOf now retentionDays) rows).1) ∧
      (∀ r ∈ rows, r ∉ (cleanupOldSessions (cutoffOf now retentionDays) rows).1 →
        (r.status = .completed ∨ r.status = .failed) ∧
          r.updatedAt < cutoffOf now retentionDays) ∧
      (∀ r ∈ (cleanupOldSessions (cutoffOf now retentionDays) rows).1, r ∈ rows) := by
  intro now rd rows
  refine ⟨?_, ?_, ?_⟩
  · intro r hr hs
    apply List.mem_filter.mpr
    refine ⟨hr, ?_⟩
    have ht : isTerminal r.status = false := by
      rcases hs with h | h <;> rw [h] <;> rfl
    simp [cleanupKeeps, ht]
  · intro r hr hnot
    have hk : cleanupKeeps (cutoffOf now rd) r = false := by
      by_contra hne
      exact hnot (List.mem_filter.mpr ⟨hr, by simpa using hne⟩)
    unfold cleanupKeeps at hk
    simp only [Bool.not_eq_false', Bool.and_eq_true, decide_eq_true_eq] at hk
    refine ⟨?_, hk.1⟩
    have ht := hk.2
    cases hst : r.status
    · rw [hst] at ht; exact absurd ht (by decide)
    · exact Or.inl rfl
    · exact Or.inr rfl
    · rw [hst] at ht; exact absurd ht (by decide)
  · intro r hr
    exact (List.mem_filter.mp hr).1

/-- Witness for C9 at a concrete store: an ancient interrupted session
survives cleanup. -/
theorem c9_cleanup_witness :
    (⟨"s1", .interrupted, -1000⟩ : SessionRow) ∈
      (cleanupOldSessions (cutoffOf 0 30) [⟨"s1", .interrupted, -1000⟩]).1 :=
  (c9_cleanup_only_old_terminal 0 30 [⟨"s1", .interrupted, -1000⟩]).1
    ⟨"s1", .interrupted, -1000⟩ (by simp) (Or.inr rfl)

/-! ## Claim C10 -/

/-- Claim C10: with zero workflow steps, `Run` returns immediately with
`Success = false` and error `"no workflow steps defined"`, executing no
step, writing no checkpoint, and leaving the outputs map untouched. -/
theorem c10_empty_workflow :
    ∀ (eng : WEngine) (orc : EngOracle) (ip : String) (maxLoops fuel : Nat)
      (init : EngineState),
      eng.steps = [] →
      run eng orc ip maxLoops fuel init =
        some (⟨false, 0, 0, "", "no workflow steps defined"⟩,
              ⟨0, [], init, [], []⟩) := by
  intro eng orc ip ml fuel init h
  unfold run
  simp [h]

/-- Witness for C10 at a concrete engine and state. -/
theorem c10_empty_workflow_witness :
    run (mkEngine []) stubOracle "p" 10 5 ⟨[("a", "b")], none⟩ =
      some (⟨false, 0, 0, "", "no workflow steps defined"⟩,
            ⟨0, [], ⟨[("a", "b")], none⟩, [], []⟩) :=
  c10_empty_workflow (mkEngine []) stubOracle "p" 10 5 ⟨[("a", "b")], none⟩ rfl

/-! ## Claim C6 -/

/-- Claim C6: for a gate-role step (`plan_validator` / `code_reviewer`)
whose task run succeeded, the step's success flag is exactly the verdict
check on the output; the verdict check agrees with the specification's
decision procedure (quoted-`"verdict"` co-occurrence check, bare-keyword
fallback); and an output with no verdict keyword at all passes. -/
theorem c6_gate_verdict_policy :
    (∀ s, checkVerdict s = verdictSpec s) ∧
    (∀ (res : TaskResult) (idx : Nat) (step : WorkflowStep),
      (step.role == "plan_validator" || step.role == "code_reviewer") = true →
      res.success = true →
      (executeSingle (.ok res) idx step).success = checkVerdict res.output) ∧
    (∀ s, keywordFree s = true → checkVerdict s = true) := by
  refine ⟨?_, ?_, ?_⟩
  · intro s
    unfold checkVerdict verdictSpec
    cases hv : containsSub (strToLower s) "\"verdict\"" <;> simp [hv]
  · intro res idx step hg hs
    simp [executeSingle, hg, hs]
  · intro s hk
    have bare : ∀ kw : String,
        listHasSub kw.toList (strToLower s).toList = true →
        containsSub (strToLower s) kw = false → False := by
      intro kw h hfalse
      rw [containsSub] at hfalse
      rw [hfalse] at h
      exact Bool.false_ne_true h
    have getFalse : ∀ kw : String,
        (containsSub (strToLower s) kw = true → keywordFree s = false) →
        containsSub (strToLower s) kw = false := by
      intro kw himp
      rcases Bool.eq_false_or_eq_true (containsSub (strToLower s) kw) with h | h
      · rw [himp h] at hk; exact absurd hk (by simp)
      · exact h
    have h1 : containsSub (strToLower s) "approved" = false :=
      getFalse _ (fun h => by simp [keywordFree, h])
    have h2 : containsSub (strToLower s) "passed" = false :=
      getFalse _ (fun h => by simp [keywordFree, h])
    have h3 : containsSub (strToLower s) "needs_revision" = false :=
      getFalse _ (fun h => by simp [keywordFree, h])
    have h4 : containsSub (strToLower s) "failed" = false :=
      getFalse _ (fun h => by simp [keywordFree, h])
    have quoted : ∀ kw : String,
        ("\"" ++ kw ++ "\"").toList = '"' :: kw.toList ++ ['"'] →
        containsSub (strToLower s) kw = false →
        containsSub (strToLower s) ("\"" ++ kw ++ "\"") = false := by
      intro kw hlist hbare
      rcases Bool.eq_false_or_eq_true
          (containsSub (strToLower s) ("\"" ++ kw ++ "\"")) with hx | hx
      · exact absurd (containsSub_quoted (strToLower s) kw hlist hx)
          (by simp [hbare])
      · exact hx
    have q1 := quoted "approved" (by decide) h1
    have q2 := quoted "passed" (by decide) h2
    have q3 := quoted "needs_revision" (by decide) h3
    have q4 := quoted "failed" (by decide) h4
    rw [show ("\"" ++ "approved" ++ "\"" : String) = "\"approved\"" from by decide] at q1
    rw [show ("\"" ++ "passed" ++ "\"" : String) = "\"passed\"" from by decide] at q2
    rw [show ("\"" ++ "needs_revision" ++ "\"" : String) = "\"needs_revision\"" from by decide] at q3
    rw [show ("\"" ++ "failed" ++ "\"" : String) = "\"failed\"" from by decide] at q4
    unfold checkVerdict
    simp [q1, q2, q3, q4, h1, h2, h3, h4]

/-- Witness for C6: an output with no verdict keyword is treated as
passing. -/
theorem c6_gate_verdict_policy_witness :
    checkVerdict "All code compiles cleanly and meets the style guide." = true :=
  c6_gate_verdict_policy.2.2 _ (by decide)

/-! ## Claim C3 -/

/-- `executePerTask`'s guard: when the known plan has no usable `tasks`
array (missing, non-array, or empty), the step fails with
`"no tasks in plan"`. -/
theorem executePerTask_no_tasks :
    ∀ (par : List ExecTask → List TaskResult) (idx : Nat)
      (step : WorkflowStep) (plan : List (String × JsonVal)),
      planTasksEmpty plan = true →
      executePerTask par idx step plan =
        ⟨idx, step.role, false, "", "no tasks in plan", [], ""⟩ := by
  intro par idx step plan hpt
  unfold executePerTask
  unfold planTasksEmpty at hpt
  cases hg : getPlanField plan "tasks" with
  | none => simp [hg]
  | some v =>
    cases v with
    | jarr xs =>
      rw [hg] at hpt
      simp only at hpt
      have : xs = [] := List.isEmpty_iff.mp hpt
      subst this
      simp [hg]
    | jnull => simp [hg]
    | jbool b => simp [hg]
    | jnum lx => simp [hg]
    | jstr sx => simp [hg]
    | jobj fs => simp [hg]

/-- Claim C3 (counterexample to the claim as stated): a `perTask` step
executed while no plan is known is not a failure — it runs in
single-task mode and here even succeeds, with a task result recorded. -/
theorem c3_fanout_no_plan_counterexample :
    ((executeStep stubOracle 0 0 { role := "implementer", perTask := true }
        ⟨[], none⟩).1.success = true) ∧
    ((executeStep stubOracle 0 0 { role := "implementer", perTask := true }
        ⟨[], none⟩).1.taskResults ≠ []) := by
  exact ⟨by decide, by decide⟩

/-- Claim C3 (amended): a `perTask` step executed while a plan is known
whose `tasks` entry is missing, non-array or empty fails with
`"no tasks in plan"`; a `perTask` step executed while no plan is known
behaves exactly as the same step with `perTask` cleared (single-task
mode). -/
theorem c3_fanout_requires_plan_tasks :
    (∀ (par : List ExecTask → List TaskResult) (idx : Nat)
       (step : WorkflowStep) (plan : List (String × JsonVal)),
       planTasksEmpty plan = true →
       executePerTask par idx step plan =
         ⟨idx, step.role, false, "", "no tasks in plan", [], ""⟩) ∧
    (∀ (orc : EngOracle) (n idx : Nat) (step : WorkflowStep)
       (outs : List (String × String)) (plan : List (String × JsonVal)),
       step.perTask = true → planTasksEmpty plan = true →
       (executeStep orc n idx step ⟨outs, some plan⟩).1.success = false ∧
       (executeStep orc n idx step ⟨outs, some plan⟩).1.error = "no tasks in plan") ∧
    (∀ (orc : EngOracle) (n idx : Nat) (step : WorkflowStep)
       (outs : List (String × String)),
       executeStep orc n idx step ⟨outs, none⟩ =
         executeStep orc n idx { step with perTask := false } ⟨outs, none⟩) := by
  refine ⟨executePerTask_no_tasks, ?_, ?_⟩
  · intro orc n idx step outs plan hper hpt
    unfold executeStep
    simp only [hper, Option.isSome_some, Bool.and_self, if_true, Bool.true_and,
      Option.getD_some]
    rw [executePerTask_no_tasks (orc.par n) idx step plan hpt]
    by_cases hf : (step.onFail != "") = true
    · simp [hf]
    · simp only [Bool.not_eq_true] at hf
      simp [hf]
  · intro orc n idx step outs
    rcases step with ⟨role, out, inp, onf, ons, pt⟩
    cases pt <;> rfl

/-- Witness for C3 (amended) at concrete inputs: an empty plan-tasks
array fails the fan-out step. -/
theorem c3_fanout_requires_plan_tasks_witness :
    executePerTask (fun _ => []) 2 { role := "implementer", perTask := true }
        [("tasks", .jarr [])] =
      ⟨2, "implementer", false, "", "no tasks in plan", [], ""⟩ :=
  c3_fanout_requires_plan_tasks.1 (fun _ => []) 2
    { role := "implementer", perTask := true } [("tasks", .jarr [])] (by decide)

/-! ## Claim C2 -/

/-- Claim C2: for a non-empty batch with unique IDs, `RunParallelTasks`
returns one slot per input task in input order — slot `i` carries input
task `i`'s ID whatever the completion order (`collected` ranges over
every permutation of the worker results) — and a slot whose ID is
missing from the collected results is a synthesized failure, not a
dropped slot. -/
theorem c2_parallel_order_preserved :
    ∀ (cfg : ExecConfig) (env : ExecTask → TaskEnv) (tasks : List ExecTask)
      (collected : List TaskResult),
      tasks ≠ [] →
      tasks.Pairwise (fun a b => a.id ≠ b.id) →
      collected.Perm (tasks.map (workerResult cfg env)) →
      (runParallelTasks tasks collected).length = tasks.length ∧
      (∀ (i : Nat) (h1 : i < (runParallelTasks tasks collected).length)
         (h2 : i < tasks.length),
         ((runParallelTasks tasks collected).get ⟨i, h1⟩).taskID =
           (tasks.get ⟨i, h2⟩).id) ∧
      (∀ (i : Nat) (h1 : i < (runParallelTasks tasks collected).length)
         (h2 : i < tasks.length),
         lookupLast collected (tasks.get ⟨i, h2⟩).id = none →
         (runParallelTasks tasks collected).get ⟨i, h1⟩ =
           synthMissing (tasks.get ⟨i, h2⟩)) := by
  intro cfg env tasks collected hne _huniq _hperm
  have hemp : tasks.isEmpty = false := by
    cases tasks with
    | nil => exact absurd rfl hne
    | cons a t => rfl
  have hrw : runParallelTasks tasks collected = gatherResults tasks collected := by
    unfold runParallelTasks
    rw [hemp]
    rfl
  refine ⟨?_, ?_, ?_⟩
  · rw [hrw]; exact List.length_map tasks _
  · intro i h1 h2
    rw [List.get_of_eq hrw ⟨i, h1⟩]
    unfold gatherResults
    rw [List.get_map]
    cases hl : lookupLast collected (tasks.get ⟨i, h2⟩).id with
    | some r =>
      simp only [hl, Option.getD_some]
      exact lookupLast_taskID collected _ r hl
    | none =>
      simp only [hl, Option.getD_none]
      rfl
  · intro i h1 h2 hl
    rw [List.get_of_eq hrw ⟨i, h1⟩]
    unfold gatherResults
    rw [List.get_map]
    rw [hl]
    rfl

/-- Witness for C2 at a concrete two-task batch whose results arrive in
reversed completion order. -/
theorem c2_parallel_order_preserved_witness :
    (runParallelTasks wTasks
        ([(wTasks.get ⟨1, by decide⟩), (wTasks.get ⟨0, by decide⟩)].map
          (workerResult cexCfg wEnv))).length = wTasks.length :=
  (c2_parallel_order_preserved cexCfg wEnv wTasks
    ([(wTasks.get ⟨1, by decide⟩), (wTasks.get ⟨0, by decide⟩)].map
      (workerResult cexCfg wEnv))
    (by decide) (by decide) (by decide)).1

/-! ## Claim C1 -/

theorem lastRanIn_bound (oracle : Nat → AttemptOutcome) :
    ∀ (len lo m : Nat), lastRanIn oracle lo len = some m → lo ≤ m ∧ m < lo + len := by
  intro len
  induction len with
  | zero => intro lo m h; simp [lastRanIn] at h
  | succ len ih =>
    intro lo m h
    unfold lastRanIn at h
    cases hr : lastRanIn oracle (lo + 1) len with
    | some k =>
      rw [hr] at h
      obtain rfl : k = m := Option.some_inj.mp h
      have := ih (lo + 1) _ hr
      omega
    | none =>
      rw [hr] at h
      by_cases hran : (oracle lo).isRan = true
      · simp [hran] at h
        omega
      · simp [Bool.not_eq_true] at hran
        simp [hran] at h

theorem lastRanIn_last (oracle : Nat → AttemptOutcome) :
    ∀ (len lo : Nat), (oracle (lo + len)).isRan = true →
      lastRanIn oracle lo (len + 1) = some (lo + len) := by
  intro len
  induction len with
  | zero =>
    intro lo h
    simp at h
    simp [lastRanIn, h]
  | succ len ih =>
    intro lo h
    have h' : (oracle ((lo + 1) + len)).isRan = true := by
      rw [show (lo + 1) + len = lo + (len + 1) by omega]; exact h
    unfold lastRanIn
    rw [ih (lo + 1) h']
    simp
    omega

theorem lastRanIn_none (oracle : Nat → AttemptOutcome) :
    ∀ (len lo : Nat), (∀ n, lo ≤ n → n < lo + len → (oracle n).isRan = false) →
      lastRanIn oracle lo len = none := by
  intro len
  induction len with
  | zero => intro lo _; rfl
  | succ len ih =>
    intro lo h
    unfold lastRanIn
    rw [ih (lo + 1) (fun n h1 h2 => h n (by omega) (by omega))]
    simp [h lo (le_refl _) (by omega)]

/-- The retry loop under uniformly failing attempts and a live context:
all remaining attempts are made, the returned value is `ok` with
`success = false`, and `retries` is the index of the last attempt that
ran, the carried result's index, or `maxRetries` if nothing ever ran. -/
theorem attemptLoop_all_fail
    (oracle : Nat → AttemptOutcome) (ctxErr : Nat → Option String)
    (taskID role agent : String) (maxRetries : Nat)
    (hctx : ∀ n, ctxErr n = none) :
    ∀ (fuel attempt : Nat) (result : Option TaskResult) (lastErr : Option String),
      attempt + fuel = maxRetries + 1 →
      (∀ n, attempt ≤ n → n ≤ maxRetries → (oracle n).isFail = true) →
      (∀ r0, result = some r0 → r0.success = false ∧ r0.retries ≤ maxRetries) →
      (attemptLoop oracle ctxErr taskID role agent maxRetries fuel attempt
          result lastErr).attemptsMade = fuel ∧
      ∃ r, (attemptLoop oracle ctxErr taskID role agent maxRetries fuel attempt
          result lastErr).ret = .ok r ∧
        r.success = false ∧ r.retries ≤ maxRetries ∧
        r.retries = (match lastRanIn oracle attempt fuel with
                     | some m => m
                     | none =>
                       match result with
                       | some r0 => r0.retries
                       | none => maxRetries) := by
  intro fuel
  induction fuel with
  | zero =>
    intro attempt result lastErr hsum hfail hres
    cases result with
    | none =>
      exact ⟨rfl, ⟨_, rfl, rfl, le_refl _, by simp [lastRanIn]⟩⟩
    | some r0 =>
      obtain ⟨hs, hle⟩ := hres r0 rfl
      exact ⟨rfl, ⟨r0, rfl, hs, hle, by simp [lastRanIn]⟩⟩
  | succ fuel ih =>
    intro attempt result lastErr hsum hfail hres
    have hattle : attempt ≤ maxRetries := by omega
    simp only [attemptLoop, hctx, ite_self]
    cases hora : oracle attempt with
    | transportErr msg =>
      obtain ⟨hA, r, hr, hs, hle, hret⟩ :=
        ih (attempt + 1) result (some msg) (by omega)
          (fun n h1 h2 => hfail n (by omega) h2) hres
      refine ⟨by simpa using hA, ⟨r, by simpa using hr, hs, hle, ?_⟩⟩
      rw [hret]
      conv_rhs => rw [lastRanIn]
      cases lastRanIn oracle (attempt + 1) fuel with
      | some m => rfl
      | none => simp [hora, AttemptOutcome.isRan]
    | ran success output errText =>
      have hsf : success = false := by
        have hx := hfail attempt (le_refl _) hattle
        rw [hora] at hx
        simpa [AttemptOutcome.isFail] using hx
      subst hsf
      simp only [Bool.false_eq_true, if_false]
      obtain ⟨hA, r, hr, hs, hle, hret⟩ :=
        ih (attempt + 1)
          (some ⟨taskID, role, agent, false, output, errText, attempt⟩)
          (some errText) (by omega)
          (fun n h1 h2 => hfail n (by omega) h2)
          (by
            intro r0 h0
            obtain rfl : (⟨taskID, role, agent, false, output, errText, attempt⟩ :
                TaskResult) = r0 := Option.some_inj.mp h0
            exact ⟨rfl, hattle⟩)
      refine ⟨by simpa using hA, ⟨r, by simpa using hr, hs, hle, ?_⟩⟩
      rw [hret]
      conv_rhs => rw [lastRanIn]
      cases lastRanIn oracle (attempt + 1) fuel with
      | some m => rfl
      | none => simp [hora, AttemptOutcome.isRan]

/-- Claim C1 (counterexample to the claim as stated): with
`maxRetries = 1`, attempt 0 running-and-failing and attempt 1 a
transport error, every attempt fails but `RunSingleTask` returns the
attempt-0 result with `retries = 0 ≠ maxRetries`. -/
theorem c1_retry_exhaustion_counterexample :
    (∀ n, n ≤ cexCfg.maxRetries → (cexOracle n).isFail = true) ∧
    runSingleTask cexCfg cexOracle ctxNone "r" "t" =
      .ok ⟨"t", "r", "a", false, "out", "boom", 0⟩ ∧
    (0 : Nat) ≠ cexCfg.maxRetries :=
  ⟨by decide, rfl, by decide⟩

/-- Claim C1 (amended): with role, agent and adapter known and no
cancellation, a uniformly failing runner is invoked exactly
`maxRetries + 1` times and `RunSingleTask` returns `(result, nil)` with
`success = false`; `retries` is the index of the last attempt that ran
without a transport error — hence `maxRetries` when the final attempt
ran, and also `maxRetries` when no attempt ran at all — and never
exceeds `maxRetries`, but is smaller when the last running attempt
preceded trailing transport errors. -/
theorem c1_retry_exhaustion :
    ∀ (cfg : ExecConfig) (oracle : Nat → AttemptOutcome)
      (ctxErr : Nat → Option String) (role taskID : String)
      (rc : RoleConfig) (ac : AgentConfig),
      cfg.roles.lookup role = some rc →
      cfg.agents.lookup rc.agent = some ac →
      createAdapterOk ac = true →
      (∀ n, ctxErr n = none) →
      (∀ n, n ≤ cfg.maxRetries → (oracle n).isFail = true) →
      (runSingleTaskFull cfg oracle ctxErr role taskID).attemptsMade =
        cfg.maxRetries + 1 ∧
      ∃ r, (runSingleTaskFull cfg oracle ctxErr role taskID).ret = .ok r ∧
        r.success = false ∧ r.retries ≤ cfg.maxRetries ∧
        r.retries = (match lastRanIn oracle 0 (cfg.maxRetries + 1) with
                     | some m => m
                     | none => cfg.maxRetries) ∧
        ((oracle cfg.maxRetries).isRan = true → r.retries = cfg.maxRetries) ∧
        ((∀ n, n ≤ cfg.maxRetries → (oracle n).isRan = false) →
          r.retries = cfg.maxRetries) := by
  intro cfg oracle ctxErr role taskID rc ac hrole hagent hadp hctx hfail
  have hloop := attemptLoop_all_fail oracle ctxErr taskID role rc.agent
    cfg.maxRetries hctx (cfg.maxRetries + 1) 0 none none (by omega)
    (fun n _ h2 => hfail n h2) (by intro r0 h0; cases h0)
  have hfull : runSingleTaskFull cfg oracle ctxErr role taskID =
      attemptLoop oracle ctxErr taskID role rc.agent cfg.maxRetries
        (cfg.maxRetries + 1) 0 none none := by
    unfold runSingleTaskFull
    simp only [hrole, hagent, hadp, if_true]
  obtain ⟨hA, r, hr, hs, hle, hret⟩ := hloop
  rw [hfull]
  refine ⟨hA, ⟨r, hr, hs, hle, hret, ?_, ?_⟩⟩
  · intro hlast
    rw [hret, lastRanIn_last oracle cfg.maxRetries 0 (by simpa using hlast)]
    simp
  · intro hnone
    rw [hret, lastRanIn_none oracle (cfg.maxRetries + 1) 0
      (fun n _ h2 => hnone n (by omega))]

/-- Witness for C1 (amended) at a concrete all-transport-error run. -/
theorem c1_retry_exhaustion_witness :
    (runSingleTaskFull cexCfg (fun _ => .transportErr "net") ctxNone
        "r" "t").attemptsMade = cexCfg.maxRetries + 1 ∧
    ∃ r, (runSingleTaskFull cexCfg (fun _ => .transportErr "net") ctxNone
        "r" "t").ret = .ok r ∧
      r.success = false ∧ r.retries ≤ cexCfg.maxRetries ∧
      r.retries = (match lastRanIn (fun _ => .transportErr "net") 0
                      (cexCfg.maxRetries + 1) with
                   | some m => m
                   | none => cexCfg.maxRetries) ∧
      (((fun _ => AttemptOutcome.transportErr "net") cexCfg.maxRetries).isRan = true →
        r.retries = cexCfg.maxRetries) ∧
      ((∀ n, n ≤ cexCfg.maxRetries →
          ((fun _ => AttemptOutcome.transportErr "net") n).isRan = false) →
        r.retries = cexCfg.maxRetries) :=
  c1_retry_exhaustion cexCfg (fun _ => .transportErr "net") ctxNone "r" "t"
    ⟨"a"⟩ ⟨"claude"⟩ rfl rfl rfl (fun _ => rfl) (by decide)

/-! ## Claim C7 -/

/-- The retry loop's only possible `error` return is the
context-cancellation one. -/
theorem attemptLoop_error_ctx
    (oracle : Nat → AttemptOutcome) (ctxErr : Nat → Option String)
    (taskID role agent : String) (maxRetries : Nat) :
    ∀ (fuel attempt : Nat) (result : Option TaskResult) (lastErr : Option String) e,
      (attemptLoop oracle ctxErr taskID role agent maxRetries fuel attempt
          result lastErr).ret = .error e →
      ∃ msg, e = .ctxDone msg := by
  intro fuel
  induction fuel with
  | zero =>
    intro attempt result lastErr e h
    simp [attemptLoop] at h
  | succ fuel ih =>
    intro attempt result lastErr e h
    simp only [attemptLoop] at h
    cases hc : (if attempt == 0 then none else ctxErr attempt) with
    | some msg =>
      rw [hc] at h
      simp at h
      exact ⟨msg, h.symm⟩
    | none =>
      rw [hc] at h
      cases hora : oracle attempt with
      | transportErr msg =>
        rw [hora] at h
        exact ih (attempt + 1) result (some msg) e (by simpa using h)
      | ran success output errText =>
        rw [hora] at h
        cases success with
        | true => simp at h
        | false =>
          simp only [Bool.false_eq_true, if_false] at h
          exact ih (attempt + 1) _ (some errText) e (by simpa using h)

/-- Claim C7 (counterexample to the claim as stated): a context
cancelled during a retry-delay wait makes `RunSingleTask` return a
non-nil error that is not a configuration error, instead of a failed
`TaskResult`. -/
theorem c7_error_reserved_counterexample :
    runSingleTask cexCfg cexOracle cancelCtx "r" "t" =
      .error (.ctxDone "context canceled") ∧
    (ExecError.ctxDone "context canceled").isConfig = false :=
  ⟨rfl, rfl⟩

/-- Claim C7 (amended): `RunSingleTask`'s non-nil error returns are the
three configuration errors plus context cancellation observed before a
retry wait; `RunParallelTasks`'s workers convert every such error —
cancellation included — into a `TaskResult` with `success = false`
carrying the error text, so at the batch level a cancelled task resolves
to a failed result rather than an error or a crash. -/
theorem c7_error_reserved :
    (∀ (cfg : ExecConfig) (oracle : Nat → AttemptOutcome)
       (ctxErr : Nat → Option String) (role taskID : String) (e : ExecError),
       runSingleTask cfg oracle ctxErr role taskID = .error e →
       e.isConfig = true ∨ ∃ msg, e = .ctxDone msg) ∧
    (∀ (cfg : ExecConfig) (env : ExecTask → TaskEnv) (t : ExecTask) (e : ExecError),
       runSingleTask cfg (env t).oracle (env t).ctxErr t.role t.id = .error e →
       workerResult cfg env t =
         ⟨t.id, t.role, "", false, "", execErrMsg e, 0⟩) := by
  constructor
  · intro cfg oracle ctxErr role taskID e h
    unfold runSingleTask runSingleTaskFull at h
    cases hrole : cfg.roles.lookup role with
    | none =>
      simp only [hrole] at h
      simp at h
      exact Or.inl (by rw [← h]; rfl)
    | some rc =>
      simp only [hrole] at h
      cases hagent : cfg.agents.lookup rc.agent with
      | none =>
        simp only [hagent] at h
        simp at h
        exact Or.inl (by rw [← h]; rfl)
      | some ac =>
        simp only [hagent] at h
        by_cases hadp : createAdapterOk ac = true
        · rw [if_pos hadp] at h
          exact Or.inr (attemptLoop_error_ctx oracle ctxErr taskID role
            rc.agent cfg.maxRetries (cfg.maxRetries + 1) 0 none none e h)
        · rw [if_neg hadp] at h
          simp at h
          exact Or.inl (by rw [← h]; rfl)
  · intro cfg env t e h
    simp only [workerResult, h]

/-- Witness for C7 at a concrete cancelled parallel task: the worker
records a failed result with the cancellation text. -/
theorem c7_error_reserved_witness :
    workerResult cexCfg cancelEnv ⟨"t9", "r", "p"⟩ =
      ⟨"t9", "r", "", false, "",
        execErrMsg (.ctxDone "context canceled"), 0⟩ :=
  c7_error_reserved.2 cexCfg cancelEnv ⟨"t9", "r", "p"⟩
    (.ctxDone "context canceled") rfl

/-! ## Claim C4 -/

theorem executeSingle_stepIndex (res : Except ExecError TaskResult)
    (idx : Nat) (step : WorkflowStep) :
    (executeSingle res idx step).stepIndex = idx := by
  cases res <;> rfl

theorem executePerTask_stepIndex (par : List ExecTask → List TaskResult)
    (idx : Nat) (step : WorkflowStep) (plan : List (String × JsonVal)) :
    (executePerTask par idx step plan).stepIndex = idx := by
  unfold executePerTask
  split
  · split <;> rfl
  · rfl

theorem stepIndex_after_jump (r : StepResult) (step : WorkflowStep) :
    ((if (!r.success && step.onFail != "") = true then { r with jumpTarget := step.onFail }
      else if (r.success && step.onSuccess != "") = true then { r with jumpTarget := step.onSuccess }
      else r) : StepResult).stepIndex = r.stepIndex := by
  split
  · rfl
  · split <;> rfl

theorem executeStep_stepIndex (orc : EngOracle) (n idx : Nat)
    (step : WorkflowStep) (st : EngineState) :
    (executeStep orc n idx step st).1.stepIndex = idx := by
  simp only [executeStep]
  rw [stepIndex_after_jump]
  split
  · exact executePerTask_stepIndex _ idx step _
  · exact executeSingle_stepIndex _ idx step

/-- The checkpoint trace invariant of the run loop: one checkpoint per
executed step, recording that step's own index (the value `saveState` is
passed) and the result count including it. -/
theorem runLoop_checkpoint_inv (eng : WEngine) (orc : EngOracle) (maxLoops : Nat) :
    ∀ (fuel : Nat) (rs : RunState) (res : RunResult) (st : RunState),
      rs.checkpoints.length = rs.results.length →
      (∀ (k : Nat) (h1 : k < rs.checkpoints.length) (h2 : k < rs.results.length),
        (rs.checkpoints.get ⟨k, h1⟩).currentStep = (rs.results.get ⟨k, h2⟩).stepIndex ∧
        (rs.checkpoints.get ⟨k, h1⟩).resultsLen = k + 1) →
      runLoop eng orc maxLoops fuel rs = some (res, st) →
      st.checkpoints.length = st.results.length ∧
      (∀ (k : Nat) (h1 : k < st.checkpoints.length) (h2 : k < st.results.length),
        (st.checkpoints.get ⟨k, h1⟩).currentStep = (st.results.get ⟨k, h2⟩).stepIndex ∧
        (st.checkpoints.get ⟨k, h1⟩).resultsLen = k + 1) := by
  intro fuel
  induction fuel with
  | zero =>
    intro rs res st _ _ h
    simp [runLoop] at h
  | succ fuel ih =>
    intro rs res st hlen hinv h
    rw [runLoop] at h
    by_cases hlt : rs.currentStep < eng.steps.length
    · rw [dif_pos hlt] at h
      by_cases hguard : (visitsGet rs.visits rs.currentStep + 1 > maxLoops)
      · rw [if_pos hguard] at h
        have hin := Option.some_inj.mp h
        rw [Prod.mk.injEq] at hin
        obtain ⟨-, hst⟩ := hin
        subst hst
        exact ⟨hlen, hinv⟩
      · rw [if_neg hguard] at h
        simp only [] at h
        set out := executeStep orc rs.results.length rs.currentStep
          (eng.steps.get ⟨rs.currentStep, hlt⟩) rs.st with hout
        have hlen2 : (rs.checkpoints ++
            [(⟨rs.currentStep, rs.results.length + 1, out.2.plan, out.2.outputs⟩ : Checkpoint)]).length =
            (rs.results ++ [out.1]).length := by
          simp [hlen]
        have hinv2 : ∀ (k : Nat)
            (h1 : k < (rs.checkpoints ++
              [(⟨rs.currentStep, rs.results.length + 1, out.2.plan, out.2.outputs⟩ : Checkpoint)]).length)
            (h2 : k < (rs.results ++ [out.1]).length),
            ((rs.checkpoints ++
              [(⟨rs.currentStep, rs.results.length + 1, out.2.plan, out.2.outputs⟩ : Checkpoint)]).get ⟨k, h1⟩).currentStep =
              ((rs.results ++ [out.1]).get ⟨k, h2⟩).stepIndex ∧
            ((rs.checkpoints ++
              [(⟨rs.currentStep, rs.results.length + 1, out.2.plan, out.2.outputs⟩ : Checkpoint)]).get ⟨k, h1⟩).resultsLen = k + 1 := by
          intro k h1 h2
          by_cases hk : k < rs.checkpoints.length
          · have hk2 : k < rs.results.length := by rw [← hlen]; exact hk
            rw [List.get_append k hk, List.get_append k hk2]
            exact hinv k hk hk2
          · have hkc : k = rs.checkpoints.length := by
              simp at h1; omega
            have hkr : k = rs.results.length := by rw [hkc, hlen]
            subst hkc
            have e1 : (rs.checkpoints ++
                [(⟨rs.currentStep, rs.results.length + 1, out.2.plan, out.2.outputs⟩ : Checkpoint)]).get
                ⟨rs.checkpoints.length, h1⟩ =
                ⟨rs.currentStep, rs.results.length + 1, out.2.plan, out.2.outputs⟩ := by
              simp
            have e2 : (rs.results ++ [out.1]).get ⟨rs.checkpoints.length, h2⟩ = out.1 := by
              simp [hlen]
            rw [e1, e2]
            constructor
            · rw [executeStep_stepIndex]
            · rw [hlen]
        cases hj : (if out.1.jumpTarget != "" then resolveJump eng out.1.jumpTarget else none) with
        | some target =>
          rw [hj] at h
          exact ih _ res st hlen2 hinv2 h
        | none =>
          rw [hj] at h
          by_cases hsucc : out.1.success = true
          · rw [if_pos hsucc] at h
            exact ih _ res st hlen2 hinv2 h
          · rw [if_neg hsucc] at h
            have hin := Option.some_inj.mp h
            rw [Prod.mk.injEq] at hin
            obtain ⟨-, hst⟩ := hin
            subst hst
            exact ⟨hlen2, hinv2⟩
    · rw [dif_neg hlt] at h
      have hin := Option.some_inj.mp h
      rw [Prod.mk.injEq] at hin
      obtain ⟨-, hst⟩ := hin
      subst hst
      exact ⟨hlen, hinv⟩

/-- Claim C4 (counterexample to the claim as stated): a one-step
workflow whose step succeeds finishes with a single checkpoint whose
persisted `currentStep` is `0` — the index of the step just executed —
not `1`, the "one past the last step" value the claim requires for a
succeeded run. -/
theorem c4_checkpoint_counterexample :
    (run (mkEngine [{ role := "implementer" }]) stubOracle "p" 10 5
        ⟨[], none⟩).map
        (fun o => (o.1.success, o.2.checkpoints.map (fun c => c.currentStep))) =
      some (true, [0]) ∧
    [0] ≠ [1] :=
  ⟨rfl, by decide⟩

/-- Claim C4 (amended): after every executed step, success or failure, a
checkpoint is written before jump logic is evaluated (checkpoint `k`
snapshots exactly the first `k + 1` step results and is taken whatever
the step's outcome or following jump), and the persisted
`WorkflowState.currentStep` is the index of the step just executed —
not the step about to execute next, and never one past the last step. -/
theorem c4_checkpoint_records_executed_step :
    ∀ (eng : WEngine) (orc : EngOracle) (ip : String) (maxLoops fuel : Nat)
      (init : EngineState) (res : RunResult) (st : RunState),
      run eng orc ip maxLoops fuel init = some (res, st) →
      st.checkpoints.length = st.results.length ∧
      (∀ (k : Nat) (h1 : k < st.checkpoints.length) (h2 : k < st.results.length),
        (st.checkpoints.get ⟨k, h1⟩).currentStep = (st.results.get ⟨k, h2⟩).stepIndex ∧
        (st.checkpoints.get ⟨k, h1⟩).resultsLen = k + 1) := by
  intro eng orc ip maxLoops fuel init res st h
  unfold run at h
  by_cases hemp : (eng.steps.length == 0) = true
  · rw [if_pos hemp] at h
    have hin := Option.some_inj.mp h
    rw [Prod.mk.injEq] at hin
    obtain ⟨-, hst⟩ := hin
    subst hst
    exact ⟨rfl, by intro k h1 h2; exact absurd h1 (by simp)⟩
  · rw [if_neg hemp] at h
    exact runLoop_checkpoint_inv eng orc maxLoops fuel _ res st rfl
      (by intro k h1 h2; exact absurd h1 (by simp)) h

/-- Witness for C4 (amended) at a concrete successful one-step run. -/
theorem c4_checkpoint_records_executed_step_witness :
    (⟨1, [(0, 1)], ⟨[("initial_prompt", "p")], none⟩,
        [⟨0, "implementer", true, "ok", "",
          [⟨"step1", "implementer", "a", true, "ok", "", 0⟩], ""⟩],
        [⟨0, 1, none, [("initial_prompt", "p")]⟩]⟩ : RunState).checkpoints.length =
      (⟨1, [(0, 1)], ⟨[("initial_prompt", "p")], none⟩,
        [⟨0, "implementer", true, "ok", "",
          [⟨"step1", "implementer", "a", true, "ok", "", 0⟩], ""⟩],
        [⟨0, 1, none, [("initial_prompt", "p")]⟩]⟩ : RunState).results.length ∧
    (∀ (k : Nat)
       (h1 : k < (⟨1, [(0, 1)], ⟨[("initial_prompt", "p")], none⟩,
          [⟨0, "implementer", true, "ok", "",
            [⟨"step1", "implementer", "a", true, "ok", "", 0⟩], ""⟩],
          [⟨0, 1, none, [("initial_prompt", "p")]⟩]⟩ : RunState).checkpoints.length)
       (h2 : k < (⟨1, [(0, 1)], ⟨[("initial_prompt", "p")], none⟩,
          [⟨0, "implementer", true, "ok", "",
            [⟨"step1", "implementer", "a", true, "ok", "", 0⟩], ""⟩],
          [⟨0, 1, none, [("initial_prompt", "p")]⟩]⟩ : RunState).results.length),
       ((⟨1, [(0, 1)], ⟨[("initial_prompt", "p")], none⟩,
          [⟨0, "implementer", true, "ok", "",
            [⟨"step1", "implementer", "a", true, "ok", "", 0⟩], ""⟩],
          [⟨0, 1, none, [("initial_prompt", "p")]⟩]⟩ : RunState).checkpoints.get
            ⟨k, h1⟩).currentStep =
         ((⟨1, [(0, 1)], ⟨[("initial_prompt", "p")], none⟩,
          [⟨0, "implementer", true, "ok", "",
            [⟨"step1", "implementer", "a", true, "ok", "", 0⟩], ""⟩],
          [⟨0, 1, none, [("initial_prompt", "p")]⟩]⟩ : RunState).results.get
            ⟨k, h2⟩).stepIndex ∧
       ((⟨1, [(0, 1)], ⟨[("initial_prompt", "p")], none⟩,
          [⟨0, "implementer", true, "ok", "",
            [⟨"step1", "implementer", "a", true, "ok", "", 0⟩], ""⟩],
          [⟨0, 1, none, [("initial_prompt", "p")]⟩]⟩ : RunState).checkpoints.get
            ⟨k, h1⟩).resultsLen = k + 1) :=
  c4_checkpoint_records_executed_step (mkEngine [{ role := "implementer" }])
    stubOracle "p" 10 5 ⟨[], none⟩ ⟨true, 1, 1, "", ""⟩ _ rfl

/-! ## Claim C5 -/

theorem lookup_eraseP_ne :
    ∀ (v : List (Nat × Nat)) (i j : Nat), j ≠ i →
      List.lookup j (v.eraseP (fun p => p.1 == i)) = List.lookup j v := by
  intro v i j hne
  induction v with
  | nil => rfl
  | cons a t ih =>
    rw [List.eraseP_cons]
    by_cases ha : (a.1 == i) = true
    · rw [ha]
      have hai : a.1 = i := eq_of_beq ha
      have : (j == a.1) = false := by
        rw [hai]
        exact beq_false_of_ne hne
      simp [List.lookup, this]
    · rw [Bool.not_eq_true] at ha
      rw [ha]
      simp only [cond_false]
      by_cases hja : (j == a.1) = true
      · simp [List.lookup, hja]
      · rw [Bool.not_eq_true] at hja
        simp [List.lookup, hja, ih]

theorem visitsGet_incr (v : List (Nat × Nat)) (i j : Nat) :
    visitsGet (visitsIncr v i) j =
      if j = i then visitsGet v i + 1 else visitsGet v j := by
  unfold visitsIncr visitsGet
  by_cases hji : j = i
  · subst hji
    simp [List.lookup]
  · have hb : (j == i) = false := beq_false_of_ne hji
    rw [if_neg hji]
    simp [List.lookup, hb, lookup_eraseP_ne v i j hji]

/-- The loop-guard bound: whenever the run loop terminates, no step
index has been executed more than `maxLoops` times. -/
theorem runLoop_visit_bound (eng : WEngine) (orc : EngOracle) (maxLoops : Nat) :
    ∀ (fuel : Nat) (rs : RunState) (res : RunResult) (st : RunState),
      (∀ j, rs.results.countP (fun r => r.stepIndex == j) ≤ visitsGet rs.visits j) →
      (∀ j, visitsGet rs.visits j ≤ maxLoops) →
      runLoop eng orc maxLoops fuel rs = some (res, st) →
      ∀ j, st.results.countP (fun r => r.stepIndex == j) ≤ maxLoops := by
  intro fuel
  induction fuel with
  | zero =>
    intro rs res st _ _ h
    simp [runLoop] at h
  | succ fuel ih =>
    intro rs res st hcount hvis h
    have hbase : ∀ j, rs.results.countP (fun r => r.stepIndex == j) ≤ maxLoops :=
      fun j => le_trans (hcount j) (hvis j)
    rw [runLoop] at h
    by_cases hlt : rs.currentStep < eng.steps.length
    · rw [dif_pos hlt] at h
      by_cases hguard : (visitsGet rs.visits rs.currentStep + 1 > maxLoops)
      · rw [if_pos hguard] at h
        have hin := Option.some_inj.mp h
        rw [Prod.mk.injEq] at hin
        obtain ⟨-, hst⟩ := hin
        subst hst
        exact hbase
      · rw [if_neg hguard] at h
        simp only [] at h
        set out := executeStep orc rs.results.length rs.currentStep
          (eng.steps.get ⟨rs.currentStep, hlt⟩) rs.st with hout
        have hcount2 : ∀ j, (rs.results ++ [out.1]).countP (fun r => r.stepIndex == j) ≤
            visitsGet (visitsIncr rs.visits rs.currentStep) j := by
          intro j
          rw [List.countP_append, visitsGet_incr]
          have hsi : out.1.stepIndex = rs.currentStep := by
            rw [hout]; exact executeStep_stepIndex ..
          by_cases hj : j = rs.currentStep
          · subst hj
            have h1 : ([out.1].countP (fun r => r.stepIndex == rs.currentStep)) = 1 := by
              simp [List.countP_cons, hsi]
            rw [h1, if_pos rfl]
            exact Nat.add_le_add (hcount _) (le_refl 1)
          · have h0 : ([out.1].countP (fun r => r.stepIndex == j)) = 0 := by
              simp [List.countP_cons, hsi]
              exact fun hc => absurd hc.symm hj
            rw [h0, if_neg hj]
            simpa using hcount j
        have hvis2 : ∀ j, visitsGet (visitsIncr rs.visits rs.currentStep) j ≤ maxLoops := by
          intro j
          rw [visitsGet_incr]
          by_cases hj : j = rs.currentStep
          · rw [if_pos hj]; omega
          · rw [if_neg hj]; exact hvis j
        cases hj : (if out.1.jumpTarget != "" then resolveJump eng out.1.jumpTarget else none) with
        | some target =>
          rw [hj] at h
          exact ih _ res st hcount2 hvis2 h
        | none =>
          rw [hj] at h
          by_cases hsucc : out.1.success = true
          · rw [if_pos hsucc] at h
            exact ih _ res st hcount2 hvis2 h
          · rw [if_neg hsucc] at h
            have hin := Option.some_inj.mp h
            rw [Prod.mk.injEq] at hin
            obtain ⟨-, hst⟩ := hin
            subst hst
            exact fun j => le_trans (hcount2 j) (hvis2 j)
    · rw [dif_neg hlt] at h
      have hin := Option.some_inj.mp h
      rw [Prod.mk.injEq] at hin
      obtain ⟨-, hst⟩ := hin
      subst hst
      exact hbase

/-- Executing the self-looping step with an always-failing oracle: the
step fails, picks up the `goto:fixer` jump directive, and leaves the
engine state unchanged. -/
theorem executeStep_selfStep (orc : EngOracle) (hfail : singleFails orc) :
    ∀ (n : Nat) (st0 : EngineState),
      (executeStep orc n 0 selfStep st0).1.success = false ∧
      (executeStep orc n 0 selfStep st0).1.jumpTarget = "goto:fixer" ∧
      (executeStep orc n 0 selfStep st0).2 = st0 := by
  intro n st0
  cases horc : orc.single n with
  | error e =>
    refine ⟨?_, ?_, ?_⟩ <;> simp [executeStep, selfStep, executeSingle, horc]
  | ok tr =>
    have htr : tr.success = false := by
      have hx := hfail n
      simp only [horc] at hx
      exact hx
    refine ⟨?_, ?_, ?_⟩ <;> simp [executeStep, selfStep, executeSingle, horc, htr]

/-- The self-loop scenario of claim C5: starting from the self-jumping
one-step workflow with `v` visits already recorded, the loop executes
the step `maxLoops - v` more times and then trips the guard with the
documented failure message. -/
theorem runLoop_selfloop (orc : EngOracle) (hfail : singleFails orc) (maxLoops : Nat) :
    ∀ (fuel : Nat) (rs : RunState),
      rs.currentStep = 0 →
      visitsGet rs.visits 0 ≤ maxLoops →
      maxLoops + 1 - visitsGet rs.visits 0 ≤ fuel →
      ∃ st, runLoop selfEngine orc maxLoops fuel rs =
        some (⟨false, st.results.length, 1, "", guardMsg maxLoops 0⟩, st) ∧
        st.results.length = rs.results.length + (maxLoops - visitsGet rs.visits 0) := by
  intro fuel
  induction fuel with
  | zero =>
    intro rs h0 hle hfuel
    omega
  | succ fuel ih =>
    intro rs h0 hle hfuel
    obtain ⟨cur, visits, st0, results, cps⟩ := rs
    simp only [] at h0 hle hfuel ⊢
    subst h0
    rw [runLoop]
    have hlt : (0 : Nat) < selfEngine.steps.length := by decide
    rw [dif_pos hlt]
    simp only []
    by_cases hguard : visitsGet visits 0 + 1 > maxLoops
    · rw [if_pos hguard]
      refine ⟨⟨0, visitsIncr visits 0, st0, results, cps⟩, ?_, by simp; omega⟩
      have hts : selfEngine.steps.length = 1 := by decide
      rw [hts]
    · rw [if_neg hguard]
      have hstep : selfEngine.steps.get ⟨0, hlt⟩ = selfStep := rfl
      rw [hstep]
      obtain ⟨hs, hj, hst⟩ := executeStep_selfStep orc hfail results.length st0
      set out := executeStep orc results.length 0 selfStep st0 with hout
      have hcond : (if (out.1.jumpTarget != "") = true
          then resolveJump selfEngine out.1.jumpTarget else none) = some 0 := by
        rw [hj]
        decide
      rw [hcond]
      obtain ⟨st, heq, hlen⟩ := ih
        ⟨0, visitsIncr visits 0, out.2, results ++ [out.1],
          cps ++ [⟨0, results.length + 1, out.2.plan, out.2.outputs⟩]⟩
        rfl
        (by simp [visitsGet_incr]; omega)
        (by simp [visitsGet_incr]; omega)
      refine ⟨st, ?_, ?_⟩
      · exact heq
      · simp only [List.length_append, List.length_singleton, visitsGet_incr,
          if_pos rfl] at hlen
        simp [visitsGet_incr] at hlen ⊢
        omega

/-- Claim C5: (i) however a run terminates, no step index is executed
more than `maxLoops` times — the visit count is incremented before
execution and tripping the guard aborts the run with the message naming
`maxLoops` and the offending (1-based) step; (ii) a failing step whose
`onFail` jumps back to itself terminates with that failure after exactly
`maxLoops` executions rather than looping forever. -/
theorem c5_loop_guard :
    (∀ (eng : WEngine) (orc : EngOracle) (ip : String) (maxLoops fuel : Nat)
       (init : EngineState) (res : RunResult) (st : RunState),
       run eng orc ip maxLoops fuel init = some (res, st) →
       ∀ j, st.results.countP (fun r => r.stepIndex == j) ≤ maxLoops) ∧
    (∀ (orc : EngOracle) (ip : String) (maxLoops fuel : Nat) (init : EngineState),
       singleFails orc →
       maxLoops + 1 ≤ fuel →
       ∃ st, run selfEngine orc ip maxLoops fuel init =
         some (⟨false, st.results.length, 1, "", guardMsg maxLoops 0⟩, st) ∧
         st.results.length = maxLoops) := by
  constructor
  · intro eng orc ip maxLoops fuel init res st h j
    unfold run at h
    by_cases hemp : (eng.steps.length == 0) = true
    · rw [if_pos hemp] at h
      have hin := Option.some_inj.mp h
      rw [Prod.mk.injEq] at hin
      obtain ⟨-, hst⟩ := hin
      subst hst
      exact Nat.zero_le _
    · rw [if_neg hemp] at h
      exact runLoop_visit_bound eng orc maxLoops fuel _ res st
        (fun j => by simp [visitsGet]) (fun j => by simp [visitsGet]) h j
  · intro orc ip maxLoops fuel init hfail hfuel
    unfold run
    rw [if_neg (by decide)]
    obtain ⟨st, heq, hlen⟩ := runLoop_selfloop orc hfail maxLoops fuel
      ⟨0, [], ⟨setOutput init.outputs "initial_prompt" ip, init.plan⟩, [], []⟩
      rfl (Nat.zero_le _) (by simpa using hfuel)
    exact ⟨st, heq, by simpa using hlen⟩

/-- Witness for C5 at a concrete always-failing self-loop run with
`maxLoops = 2`. -/
theorem c5_loop_guard_witness :
    ∃ st, run selfEngine stubFailOracle "p" 2 3 ⟨[], none⟩ =
      some (⟨false, st.results.length, 1, "", guardMsg 2 0⟩, st) ∧
      st.results.length = 2 :=
  c5_loop_guard.2 stubFailOracle "p" 2 3 ⟨[], none⟩ (fun n => rfl) (by decide)

/-! ## Claim C8 -/

theorem hexVal_hexDigitChar : ∀ n, n < 16 → hexVal (hexDigitChar n) = some n := by
  decide

/-- One simple (non-`\u`) escape decodes back to its character. -/
theorem parseStringBody_simpleEsc (e0 c0 : Char) (he : escCharOf e0 = some c0)
    (hne : ¬e0 = 'u') (cs tail rest' : List Char)
    (ihh : parseStringBody tail = some (cs, rest')) :
    parseStringBody ('\\' :: e0 :: tail) = some (c0 :: cs, rest') := by
  rw [parseStringBody.eq_def]
  simp [hne, he, ihh]

/-- One `\uXXXX` escape decodes back to the character it denotes. -/
theorem parseStringBody_uEsc (d1 d2 d3 d4 : Char) (a b c d : Nat)
    (e1 : hexVal d1 = some a) (e2 : hexVal d2 = some b)
    (e3 : hexVal d3 = some c) (e4 : hexVal d4 = some d)
    (hv : Nat.isValidChar (((a * 16 + b) * 16 + c) * 16 + d))
    (cs tail rest' : List Char)
    (ihh : parseStringBody tail = some (cs, rest')) :
    parseStringBody ('\\' :: 'u' :: d1 :: d2 :: d3 :: d4 :: tail) =
      some (Char.ofNat (((a * 16 + b) * 16 + c) * 16 + d) :: cs, rest') := by
  rw [parseStringBody.eq_def]
  simp [e1, e2, e3, e4, hv, ihh]

theorem parseStringBody_esc :
    ∀ (cs : List Char) (rest : List Char),
      parseStringBody ((cs.map escChar).flatten ++ '"' :: rest) = some (cs, rest) := by
  intro cs
  induction cs with
  | nil =>
    intro rest
    rw [List.map_nil, List.flatten_nil, List.nil_append, parseStringBody.eq_def]
    simp
  | cons c cs ih =>
    intro rest
    simp only [List.map_cons, List.flatten_cons, List.append_assoc]
    by_cases h1 : c = '\\'
    · subst h1
      rw [show escChar '\\' = ['\\', '\\'] from rfl]
      exact parseStringBody_simpleEsc '\\' '\\' (by decide) (by decide) cs _ rest (ih rest)
    by_cases h2 : c = '"'
    · subst h2
      rw [show escChar '"' = ['\\', '"'] from rfl]
      exact parseStringBody_simpleEsc '"' '"' (by decide) (by decide) cs _ rest (ih rest)
    by_cases h3 : c = '\n'
    · subst h3
      rw [show escChar '\n' = ['\\', 'n'] from rfl]
      exact parseStringBody_simpleEsc 'n' '\n' (by decide) (by decide) cs _ rest (ih rest)
    by_cases h4 : c = '\r'
    · subst h4
      rw [show escChar '\r' = ['\\', 'r'] from rfl]
      exact parseStringBody_simpleEsc 'r' '\r' (by decide) (by decide) cs _ rest (ih rest)
    by_cases h5 : c = '\t'
    · subst h5
      rw [show escChar '\t' = ['\\', 't'] from rfl]
      exact parseStringBody_simpleEsc 't' '\t' (by decide) (by decide) cs _ rest (ih rest)
    by_cases h6 : (c.toNat < 0x20 || c = '<' || c = '>' || c = '&') = true
    · have hesc : escChar c =
          ['\\', 'u', '0', '0', hexDigitChar (c.toNat / 16), hexDigitChar (c.toNat % 16)] := by
        unfold escChar
        rw [if_neg h1, if_neg h2, if_neg h3, if_neg h4, if_neg h5, if_pos h6]
      rw [hesc]
      have hlt : c.toNat < 256 := by
        simp only [Bool.or_eq_true, decide_eq_true_eq] at h6
        rcases h6 with ((h | h) | h) | h
        · omega
        · subst h; decide
        · subst h; decide
        · subst h; decide
      have hdiv : c.toNat / 16 < 16 := by omega
      have hmod : c.toNat % 16 < 16 := by omega
      simp only [List.cons_append, List.nil_append]
      have hn : ((0 * 16 + 0) * 16 + c.toNat / 16) * 16 + c.toNat % 16 = c.toNat := by
        omega
      have hch : Char.ofNat (((0 * 16 + 0) * 16 + c.toNat / 16) * 16 + c.toNat % 16) = c := by
        rw [hn, Char.ofNat_toNat]
      have hu := parseStringBody_uEsc '0' '0' (hexDigitChar (c.toNat / 16))
        (hexDigitChar (c.toNat % 16)) 0 0 (c.toNat / 16) (c.toNat % 16)
        (by decide) (by decide) (hexVal_hexDigitChar _ hdiv) (hexVal_hexDigitChar _ hmod)
        (by rw [hn]; exact c.valid) cs ((List.map escChar cs).flatten ++ '"' :: rest)
        rest (ih rest)
      rw [hch] at hu
      exact hu
    by_cases h7 : c.toNat = 0x2028
    · have hesc : escChar c = ['\\', 'u', '2', '0', '2', '8'] := by
        unfold escChar
        rw [if_neg h1, if_neg h2, if_neg h3, if_neg h4, if_neg h5, if_neg h6, if_pos h7]
      rw [hesc]
      simp only [List.cons_append, List.nil_append]
      have hn : ((2 * 16 + 0) * 16 + 2) * 16 + 8 = c.toNat := by omega
      have hch : Char.ofNat (((2 * 16 + 0) * 16 + 2) * 16 + 8) = c := by
        rw [hn, Char.ofNat_toNat]
      rw [← hch]
      exact parseStringBody_uEsc '2' '0' '2' '8' 2 0 2 8
        (by decide) (by decide) (by decide) (by decide)
        (by rw [hn]; exact c.valid) cs _ rest (ih rest)
    by_cases h8 : c.toNat = 0x2029
    · have hesc : escChar c = ['\\', 'u', '2', '0', '2', '9'] := by
        unfold escChar
        rw [if_neg h1, if_neg h2, if_neg h3, if_neg h4, if_neg h5, if_neg h6,
          if_neg h7, if_pos h8]
      rw [hesc]
      simp only [List.cons_append, List.nil_append]
      have hn : ((2 * 16 + 0) * 16 + 2) * 16 + 9 = c.toNat := by omega
      have hch : Char.ofNat (((2 * 16 + 0) * 16 + 2) * 16 + 9) = c := by
        rw [hn, Char.ofNat_toNat]
      rw [← hch]
      exact parseStringBody_uEsc '2' '0' '2' '9' 2 0 2 9
        (by decide) (by decide) (by decide) (by decide)
        (by rw [hn]; exact c.valid) cs _ rest (ih rest)
    have hesc : escChar c = [c] := by
      unfold escChar
      rw [if_neg h1, if_neg h2, if_neg h3, if_neg h4, if_neg h5, if_neg h6,
        if_neg h7, if_neg h8]
    rw [hesc]
    simp only [List.cons_append, List.nil_append]
    rw [parseStringBody.eq_def]
    have hge : ¬(c.toNat < 0x20) := by
      intro hc
      exact h6 (by simp [hc])
    simp [h1, h2, hge, ih]

theorem decodeStrList_enc (l : List String) :
    decodeStrList (encodeStrArr l) = some l := by
  induction l with
  | nil => rfl
  | cons x t ih =>
    simp only [encodeStrArr, decodeStrList, List.map_cons, List.mapM_cons]
    simp only [encodeStrArr, decodeStrList] at ih
    rw [show decodeStr (.jstr x) = some x from rfl, ih]
    rfl

theorem decodeTask_enc (t : PlanTask) : decodeTask (encodeTask t) = some t := by
  rcases t with ⟨id, desc, files, ac⟩
  cases hf : files.isEmpty <;> cases ha : ac.isEmpty <;>
    simp_all [encodeTask, decodeTask, decodeField, fieldLookup, lookupLastStr,
      strToLower, decodeStr, decodeStrList_enc, List.isEmpty_iff, bind, Option.bind]

theorem decodeSpec_enc (s : PlanSpec) : decodeSpec (encodeSpec s) = some s := by
  rcases s with ⟨f, c⟩
  simp [encodeSpec, decodeSpec, decodeField, fieldLookup, lookupLastStr,
    strToLower, decodeStr, bind, Option.bind]

theorem decodeTaskList_enc (ts : List PlanTask) :
    decodeTaskList (.jarr (ts.map encodeTask)) = some ts := by
  induction ts with
  | nil => rfl
  | cons x t ih =>
    simp only [decodeTaskList, List.map_cons, List.mapM_cons] at ih ⊢
    rw [decodeTask_enc, ih]
    rfl

theorem decodeSpecList_enc (ss : List PlanSpec) :
    decodeSpecList (.jarr (ss.map encodeSpec)) = some ss := by
  induction ss with
  | nil => rfl
  | cons x t ih =>
    simp only [decodeSpecList, List.map_cons, List.mapM_cons] at ih ⊢
    rw [decodeSpec_enc, ih]
    rfl

theorem decodePlan_enc (p : Plan) : decodePlan (encodePlan p) = some p := by
  rcases p with ⟨ts, ss⟩
  cases hs : ss.isEmpty with
  | false =>
    have h1 : encodePlan ⟨ts, ss⟩ = .jobj [("tasks", .jarr (ts.map encodeTask)),
        ("specs", .jarr (ss.map encodeSpec))] := by
      simp [encodePlan, hs]
    rw [h1]
    rw [show decodePlan (.jobj [("tasks", .jarr (ts.map encodeTask)),
        ("specs", .jarr (ss.map encodeSpec))]) =
      (decodeTaskList (.jarr (ts.map encodeTask))).bind fun tasks =>
        (decodeSpecList (.jarr (ss.map encodeSpec))).bind fun specs =>
          some ⟨tasks, specs⟩ from rfl]
    rw [decodeTaskList_enc, decodeSpecList_enc]
    rfl
  | true =>
    have hs' : ss = [] := List.isEmpty_iff.mp hs
    subst hs'
    have h1 : encodePlan ⟨ts, []⟩ = .jobj [("tasks", .jarr (ts.map encodeTask))] := by
      simp [encodePlan]
    rw [h1]
    rw [show decodePlan (.jobj [("tasks", .jarr (ts.map encodeTask))]) =
      (decodeTaskList (.jarr (ts.map encodeTask))).bind fun tasks =>
        some ⟨tasks, []⟩ from rfl]
    rw [decodeTaskList_enc]
    rfl

theorem jsize_pos (v : JsonVal) : 1 ≤ jsize v := by
  cases v <;> simp [jsize]

theorem jsizeList_pos (x : JsonVal) (t : List JsonVal) : 1 ≤ jsizeList (x :: t) := by
  simp [jsizeList]; omega

theorem jsizeFields_pos (f : String × JsonVal) (t : List (String × JsonVal)) :
    1 ≤ jsizeFields (f :: t) := by
  simp [jsizeFields]; omega

/-- A printed value starts with a non-whitespace character other than a
closing bracket (numbers excluded). -/
theorem printVal_head_props (v : JsonVal) (hn : numFree v = true) :
    ∃ c t, printVal v = c :: t ∧ isJWs c = false ∧ c ≠ ']' := by
  cases v with
  | jnull => exact ⟨'n', _, rfl, by decide, by decide⟩
  | jbool b =>
    cases b
    · exact ⟨'f', _, rfl, by decide, by decide⟩
    · exact ⟨'t', _, rfl, by decide, by decide⟩
  | jnum s => exact absurd hn (by simp [numFree])
  | jstr s => exact ⟨'"', _, rfl, by decide, by decide⟩
  | jarr xs => exact ⟨'[', _, rfl, by decide, by decide⟩
  | jobj fs => exact ⟨'\x7b', _, rfl, by decide, by decide⟩

theorem skipWs_cons (c : Char) (t : List Char) (hc : isJWs c = false) :
    skipWs (c :: t) = c :: t := by
  simp [skipWs, List.dropWhile, hc]

theorem parseArrElems_eq (fuel : Nat) (l : List Char) :
    parseArrElems (fuel + 1) l =
      (match parseVal fuel l with
       | none => none
       | some (v, rest) =>
         match skipWs rest with
         | ',' :: rest2 => (parseArrElems fuel rest2).map fun (xs, r) => (v :: xs, r)
         | ']' :: rest2 => some ([v], rest2)
         | _ => none) := rfl

theorem parseVal_eq_arr (fuel : Nat) (rest : List Char) :
    parseVal (fuel + 1) ('[' :: rest) =
      (match skipWs rest with
       | ']' :: r => some (.jarr [], r)
       | l2 => (parseArrElems fuel l2).map fun (xs, r) => (.jarr xs, r)) := rfl

theorem parseVal_obj_quote (fuel : Nat) (X : List Char) :
    parseVal (fuel + 1) ('\x7b' :: '"' :: X) =
      (parseObjFields fuel ('"' :: X)).map fun (fs, r) => (JsonVal.jobj fs, r) := rfl

theorem parseObjFields_eq (fuel : Nat) (X : List Char) :
    parseObjFields (fuel + 1) ('"' :: X) =
      (match parseStringBody X with
       | none => none
       | some (k, rest2) =>
         match skipWs rest2 with
         | ':' :: rest3 =>
           (match parseVal fuel rest3 with
            | none => none
            | some (v, rest4) =>
              match skipWs rest4 with
              | ',' :: rest5 =>
                (parseObjFields fuel rest5).map fun (fs, r) => ((⟨k⟩, v) :: fs, r)
              | '\x7d' :: rest5 => some ([(⟨k⟩, v)], rest5)
              | _ => none)
         | _ => none) := rfl

/-- The printer/parser round trip, all three mutual functions at once,
by induction on the parser's fuel. -/
theorem parsePrint_all : ∀ fuel : Nat,
    (∀ v rest, numFree v = true → jsize v ≤ fuel →
      parseVal fuel (printVal v ++ rest) = some (v, rest)) ∧
    (∀ xs rest, numFreeList xs = true → jsizeList xs ≤ fuel → xs ≠ [] →
      parseArrElems fuel (printElems xs ++ ']' :: rest) = some (xs, rest)) ∧
    (∀ fs rest, numFreeFields fs = true → jsizeFields fs ≤ fuel → fs ≠ [] →
      parseObjFields fuel (printFields fs ++ '\x7d' :: rest) = some (fs, rest)) := by
  intro fuel
  induction fuel with
  | zero =>
    refine ⟨fun v _ _ h => absurd h (by have := jsize_pos v; omega),
      fun xs rest _ h hne => ?_, fun fs rest _ h hne => ?_⟩
    · cases xs with
      | nil => exact absurd rfl hne
      | cons x t => exact absurd h (by have := jsizeList_pos x t; omega)
    · cases fs with
      | nil => exact absurd rfl hne
      | cons f t => exact absurd h (by have := jsizeFields_pos f t; omega)
  | succ fuel ih =>
    obtain ⟨ihv, ihl, ihf⟩ := ih
    refine ⟨?_, ?_, ?_⟩
    · intro v rest hn hsz
      cases v with
      | jnull => rfl
      | jbool b => cases b <;> rfl
      | jnum s => exact absurd hn (by simp [numFree])
      | jstr s =>
        have h1 : printVal (.jstr s) ++ rest =
            '"' :: ((s.toList.map escChar).flatten ++ '"' :: rest) := by
          simp [printVal, printStr, escStr]
        rw [h1]
        rw [show parseVal (fuel + 1)
            ('"' :: ((s.toList.map escChar).flatten ++ '"' :: rest)) =
          (parseStringBody ((s.toList.map escChar).flatten ++ '"' :: rest)).map
            (fun p => (JsonVal.jstr ⟨p.1⟩, p.2)) from rfl]
        rw [parseStringBody_esc s.toList rest]
        rfl
      | jarr xs =>
        cases xs with
        | nil => rfl
        | cons x xs' =>
          have hnl : numFreeList (x :: xs') = true := by simpa [numFree] using hn
          have hnx : numFree x = true := by
            simp only [numFreeList, Bool.and_eq_true] at hnl
            exact hnl.1
          have hnl' : numFreeList (x :: xs') = true := by
            simpa [numFree] using hn
          have hsz' : jsizeList (x :: xs') ≤ fuel := by
            simp only [jsize] at hsz
            omega
          obtain ⟨c, t, hpr, hws, hnb⟩ := printVal_head_props x hnx
          obtain ⟨t2, hpe⟩ : ∃ t2, printElems (x :: xs') = c :: t2 := by
            cases xs' with
            | nil => exact ⟨t, by simp [printElems, hpr]⟩
            | cons y r => exact ⟨t ++ ',' :: printElems (y :: r), by simp [printElems, hpr]⟩
          have h1 : printVal (.jarr (x :: xs')) ++ rest = '[' :: (c :: (t2 ++ ']' :: rest)) := by
            simp [printVal, hpe]
          rw [h1, parseVal_eq_arr, skipWs_cons c _ hws]
          split
          · next heq =>
            rw [List.cons.injEq] at heq
            exact absurd heq.1 hnb
          · have h2 : (c : Char) :: (t2 ++ ']' :: rest) =
                printElems (x :: xs') ++ ']' :: rest := by
              rw [hpe]
              rfl
            rw [h2, ihl (x :: xs') rest hnl' hsz' (by simp)]
            rfl
      | jobj fs =>
        cases fs with
        | nil => rfl
        | cons f fs' =>
          have hnf : numFreeFields (f :: fs') = true := by simpa [numFree] using hn
          have hsz' : jsizeFields (f :: fs') ≤ fuel := by
            simp only [jsize] at hsz
            omega
          obtain ⟨t2, hpe⟩ : ∃ t2, printFields (f :: fs') = '"' :: t2 := by
            rcases f with ⟨k, v⟩
            cases fs' with
            | nil =>
              exact ⟨escStr k ++ '"' :: ':' :: printVal v, by simp [printFields, printStr]⟩
            | cons g r =>
              exact ⟨escStr k ++ '"' :: ':' :: (printVal v ++ ',' :: printFields (g :: r)),
                by simp [printFields, printStr]⟩
          have h1 : printVal (.jobj (f :: fs')) ++ rest =
              '\x7b' :: '"' :: (t2 ++ '\x7d' :: rest) := by
            simp [printVal, hpe]
          rw [h1, parseVal_obj_quote]
          have h2 : ('"' : Char) :: (t2 ++ '\x7d' :: rest) =
              printFields (f :: fs') ++ '\x7d' :: rest := by
            rw [hpe]
            rfl
          rw [h2, ihf (f :: fs') rest hnf hsz' (by simp)]
          rfl
    · intro xs rest hn hsz hne
      cases xs with
      | nil => exact absurd rfl hne
      | cons x xs' =>
        have hnx : numFree x = true ∧ numFreeList xs' = true := by
          simpa [numFreeList, Bool.and_eq_true] using hn
        cases xs' with
        | nil =>
          have h1 : printElems [x] ++ ']' :: rest = printVal x ++ ']' :: rest := by
            simp [printElems]
          have hszx : jsize x ≤ fuel := by
            simp only [jsizeList] at hsz
            omega
          have hv := ihv x (']' :: rest) hnx.1 hszx
          rw [parseArrElems_eq, h1]
          simp only [hv]
          rfl
        | cons y r =>
          have h1 : printElems (x :: y :: r) ++ ']' :: rest =
              printVal x ++ (',' :: (printElems (y :: r) ++ ']' :: rest)) := by
            simp [printElems]
          have hszx : jsize x ≤ fuel := by
            simp only [jsizeList] at hsz
            omega
          have hszr : jsizeList (y :: r) ≤ fuel := by
            simp only [jsizeList] at hsz ⊢
            omega
          have hv := ihv x (',' :: (printElems (y :: r) ++ ']' :: rest)) hnx.1 hszx
          have ha := ihl (y :: r) rest hnx.2 hszr (by simp)
          rw [parseArrElems_eq, h1]
          simp only [hv]
          rw [show skipWs (',' :: (printElems (y :: r) ++ ']' :: rest)) =
            ',' :: (printElems (y :: r) ++ ']' :: rest) from rfl]
          simp only [ha]
          rfl
    · intro fs rest hn hsz hne
      cases fs with
      | nil => exact absurd rfl hne
      | cons f fs' =>
        rcases f with ⟨k, v⟩
        have hnx : numFree v = true ∧ numFreeFields fs' = true := by
          simpa [numFreeFields, Bool.and_eq_true] using hn
        cases fs' with
        | nil =>
          have h1 : printFields [(k, v)] ++ '\x7d' :: rest =
              '"' :: ((k.toList.map escChar).flatten ++
                '"' :: (':' :: (printVal v ++ '\x7d' :: rest))) := by
            simp [printFields, printStr, escStr]
          have hszv : jsize v ≤ fuel := by
            simp only [jsizeFields] at hsz
            omega
          have hk := parseStringBody_esc k.toList (':' :: (printVal v ++ '\x7d' :: rest))
          have hv := ihv v ('\x7d' :: rest) hnx.1 hszv
          rw [h1, parseObjFields_eq]
          simp only [hk]
          rw [show skipWs (':' :: (printVal v ++ '\x7d' :: rest)) =
            ':' :: (printVal v ++ '\x7d' :: rest) from rfl]
          simp only [hv]
          rfl
        | cons g r =>
          have h1 : printFields ((k, v) :: g :: r) ++ '\x7d' :: rest =
              '"' :: ((k.toList.map escChar).flatten ++
                '"' :: (':' :: (printVal v ++
                  ',' :: (printFields (g :: r) ++ '\x7d' :: rest)))) := by
            simp [printFields, printStr, escStr]
          have hszv : jsize v ≤ fuel := by
            simp only [jsizeFields] at hsz
            omega
          have hszr : jsizeFields (g :: r) ≤ fuel := by
            simp only [jsizeFields] at hsz ⊢
            omega
          have hk := parseStringBody_esc k.toList
            (':' :: (printVal v ++ ',' :: (printFields (g :: r) ++ '\x7d' :: rest)))
          have hv := ihv v (',' :: (printFields (g :: r) ++ '\x7d' :: rest)) hnx.1 hszv
          have hf := ihf (g :: r) rest hnx.2 hszr (by simp)
          rw [h1, parseObjFields_eq]
          simp only [hk]
          rw [show skipWs (':' :: (printVal v ++
            ',' :: (printFields (g :: r) ++ '\x7d' :: rest))) =
            ':' :: (printVal v ++
              ',' :: (printFields (g :: r) ++ '\x7d' :: rest)) from rfl]
          simp only [hv]
          rw [show skipWs (',' :: (printFields (g :: r) ++ '\x7d' :: rest)) =
            ',' :: (printFields (g :: r) ++ '\x7d' :: rest) from rfl]
          simp only [hf]
          rfl

/-- The node count never exceeds the printed length (numbers excluded),
so the fuel `parseJsonL` supplies is always sufficient. -/
theorem jsize_le_print_all : ∀ fuel : Nat,
    (∀ v, jsize v ≤ fuel → numFree v = true → jsize v ≤ (printVal v).length) ∧
    (∀ xs, jsizeList xs ≤ fuel → numFreeList xs = true →
      jsizeList xs ≤ (printElems xs).length + 1) ∧
    (∀ fs, jsizeFields fs ≤ fuel → numFreeFields fs = true →
      jsizeFields fs ≤ (printFields fs).length + 1) := by
  intro fuel
  induction fuel with
  | zero =>
    refine ⟨fun v h _ => absurd h (by have := jsize_pos v; omega),
      fun xs h _ => ?_, fun fs h _ => ?_⟩
    · cases xs with
      | nil => simp [jsizeList]
      | cons x t => exact absurd h (by have := jsizeList_pos x t; omega)
    · cases fs with
      | nil => simp [jsizeFields]
      | cons f t => exact absurd h (by have := jsizeFields_pos f t; omega)
  | succ fuel ih =>
    obtain ⟨ihv, ihl, ihf⟩ := ih
    refine ⟨?_, ?_, ?_⟩
    · intro v hsz hn
      cases v with
      | jnull => simp [jsize, printVal]
      | jbool b => cases b <;> simp [jsize, printVal]
      | jnum s => exact absurd hn (by simp [numFree])
      | jstr s => simp [jsize, printVal, printStr]
      | jarr xs =>
        have h1 : jsizeList xs ≤ fuel := by
          simp only [jsize] at hsz; omega
        have h2 := ihl xs h1 (by simpa [numFree] using hn)
        simp only [jsize, printVal, List.length_cons, List.length_append]
        simp at h2 ⊢
        omega
      | jobj fs =>
        have h1 : jsizeFields fs ≤ fuel := by
          simp only [jsize] at hsz; omega
        have h2 := ihf fs h1 (by simpa [numFree] using hn)
        simp only [jsize, printVal, List.length_cons, List.length_append]
        simp at h2 ⊢
        omega
    · intro xs hsz hn
      cases xs with
      | nil => simp [jsizeList]
      | cons x xs' =>
        have hnx : numFree x = true ∧ numFreeList xs' = true := by
          simpa [numFreeList, Bool.and_eq_true] using hn
        cases xs' with
        | nil =>
          have h1 : jsize x ≤ fuel := by
            simp only [jsizeList] at hsz; omega
          have h2 := ihv x h1 hnx.1
          simp only [jsizeList, printElems]
          omega
        | cons y r =>
          have h1 : jsize x ≤ fuel := by
            simp only [jsizeList] at hsz; omega
          have h3 : jsizeList (y :: r) ≤ fuel := by
            simp only [jsizeList] at hsz ⊢; omega
          have h2 := ihv x h1 hnx.1
          have h4 := ihl (y :: r) h3 hnx.2
          simp only [jsizeList, printElems, List.length_append, List.length_cons] at h4 ⊢
          omega
    · intro fs hsz hn
      cases fs with
      | nil => simp [jsizeFields]
      | cons f fs' =>
        rcases f with ⟨k, v⟩
        have hnx : numFree v = true ∧ numFreeFields fs' = true := by
          simpa [numFreeFields, Bool.and_eq_true] using hn
        cases fs' with
        | nil =>
          have h1 : jsize v ≤ fuel := by
            simp only [jsizeFields] at hsz; omega
          have h2 := ihv v h1 hnx.1
          simp only [jsizeFields, printFields, List.length_append, List.length_cons]
          omega
        | cons g r =>
          have h1 : jsize v ≤ fuel := by
            simp only [jsizeFields] at hsz; omega
          have h3 : jsizeFields (g :: r) ≤ fuel := by
            simp only [jsizeFields] at hsz ⊢; omega
          have h2 := ihv v h1 hnx.1
          have h4 := ihf (g :: r) h3 hnx.2
          simp only [jsizeFields, printFields, List.length_append, List.length_cons] at h4 ⊢
          omega

/-- `json.Unmarshal` inverts `json.Marshal` on number-free values. -/
theorem parseJsonL_print (v : JsonVal) (hn : numFree v = true) :
    parseJsonL (printVal v) = some v := by
  have hsz : jsize v ≤ (printVal v).length + 1 := by
    have := ((jsize_le_print_all (jsize v)).1 v le_rfl hn)
    omega
  have h := (parsePrint_all ((printVal v).length + 1)).1 v [] hn hsz
  rw [List.append_nil] at h
  unfold parseJsonL
  rw [h]
  rfl

theorem numFreeFields_append (a b : List (String × JsonVal)) :
    numFreeFields (a ++ b) = (numFreeFields a && numFreeFields b) := by
  induction a with
  | nil => simp [numFreeFields]
  | cons f t ih => simp [numFreeFields, ih, Bool.and_assoc]

theorem numFree_jstrList (l : List String) :
    numFreeList (l.map JsonVal.jstr) = true := by
  induction l with
  | nil => rfl
  | cons x t ih => simp [numFreeList, numFree, ih]

theorem numFree_encodeStrArr (l : List String) : numFree (encodeStrArr l) = true := by
  simp [encodeStrArr, numFree, numFree_jstrList]

theorem numFree_encodeTask (t : PlanTask) : numFree (encodeTask t) = true := by
  rcases t with ⟨id, desc, files, ac⟩
  cases hf : files.isEmpty <;> cases ha : ac.isEmpty <;>
    simp [encodeTask, hf, ha, numFree, numFreeFields_append, numFreeFields,
      encodeStrArr, numFree_jstrList]

theorem numFree_encodeSpec (s : PlanSpec) : numFree (encodeSpec s) = true := rfl

theorem numFree_taskList (ts : List PlanTask) :
    numFreeList (ts.map encodeTask) = true := by
  induction ts with
  | nil => rfl
  | cons x t ih => simp [numFreeList, numFree_encodeTask, ih]

theorem numFree_specList (ss : List PlanSpec) :
    numFreeList (ss.map encodeSpec) = true := by
  induction ss with
  | nil => rfl
  | cons x t ih => simp [numFreeList, numFree_encodeSpec, ih]

theorem numFree_encodePlan (p : Plan) : numFree (encodePlan p) = true := by
  rcases p with ⟨ts, ss⟩
  cases hs : ss.isEmpty <;>
    simp [encodePlan, hs, numFree, numFreeFields_append, numFreeFields,
      numFree_taskList, numFree_specList]

/-- Without any fence in the input, the extraction regex cannot match. -/
theorem extractFenced_none :
    ∀ l, listHasSub fenceChars l = false → extractFenced l = none := by
  intro l
  induction l with
  | nil => intro _; rfl
  | cons c t ih =>
    intro h
    simp only [listHasSub, Bool.or_eq_false_iff] at h
    unfold extractFenced
    rw [show isFence (c :: t) = fenceChars.isPrefixOf (c :: t) from rfl, h.1, if_neg (by simp)]
    exact ih h.2

/-- The Go escaper never emits a raw newline. -/
theorem newline_not_mem_escChar (c : Char) : '\n' ∉ escChar c := by
  by_cases h1 : c = '\\'
  · subst h1; decide
  by_cases h2 : c = '"'
  · subst h2; decide
  by_cases h3 : c = '\n'
  · subst h3; decide
  by_cases h4 : c = '\r'
  · subst h4; decide
  by_cases h5 : c = '\t'
  · subst h5; decide
  by_cases h6 : (c.toNat < 0x20 || c = '<' || c = '>' || c = '&') = true
  · have hesc : escChar c =
        ['\\', 'u', '0', '0', hexDigitChar (c.toNat / 16), hexDigitChar (c.toNat % 16)] := by
      unfold escChar
      rw [if_neg h1, if_neg h2, if_neg h3, if_neg h4, if_neg h5, if_pos h6]
    have hlt : c.toNat < 256 := by
      simp only [Bool.or_eq_true, decide_eq_true_eq] at h6
      rcases h6 with ((h | h) | h) | h
      · omega
      · subst h; decide
      · subst h; decide
      · subst h; decide
    have hx : ∀ m, m < 16 → ¬('\n' = hexDigitChar m) := by decide
    rw [hesc]
    intro hm
    simp only [List.mem_cons, List.not_mem_nil, or_false] at hm
    rcases hm with h | h | h | h | h | h
    · exact absurd h (by decide)
    · exact absurd h (by decide)
    · exact absurd h (by decide)
    · exact absurd h (by decide)
    · exact hx (c.toNat / 16) (by omega) h
    · exact hx (c.toNat % 16) (by omega) h
  by_cases h7 : c.toNat = 0x2028
  · have hesc : escChar c = ['\\', 'u', '2', '0', '2', '8'] := by
      unfold escChar
      rw [if_neg h1, if_neg h2, if_neg h3, if_neg h4, if_neg h5, if_neg h6, if_pos h7]
    rw [hesc]; decide
  by_cases h8 : c.toNat = 0x2029
  · have hesc : escChar c = ['\\', 'u', '2', '0', '2', '9'] := by
      unfold escChar
      rw [if_neg h1, if_neg h2, if_neg h3, if_neg h4, if_neg h5, if_neg h6,
        if_neg h7, if_pos h8]
    rw [hesc]; decide
  have hesc : escChar c = [c] := by
    unfold escChar
    rw [if_neg h1, if_neg h2, if_neg h3, if_neg h4, if_neg h5, if_neg h6,
      if_neg h7, if_neg h8]
  rw [hesc]
  intro hm
  simp only [List.mem_singleton] at hm
  exact h3 hm.symm

theorem newline_not_mem_escStr (s : String) : '\n' ∉ escStr s := by
  intro hm
  simp only [escStr, List.mem_flatten] at hm
  obtain ⟨l, hl, hml⟩ := hm
  obtain ⟨c, _, rfl⟩ := List.mem_map.mp hl
  exact newline_not_mem_escChar c hml

/-- Compact `json.Marshal` output contains no raw newline (numbers
excluded). -/
theorem printVal_no_newline_all : ∀ fuel : Nat,
    (∀ v, jsize v ≤ fuel → numFree v = true → '\n' ∉ printVal v) ∧
    (∀ xs, jsizeList xs ≤ fuel → numFreeList xs = true → '\n' ∉ printElems xs) ∧
    (∀ fs, jsizeFields fs ≤ fuel → numFreeFields fs = true → '\n' ∉ printFields fs) := by
  intro fuel
  induction fuel with
  | zero =>
    refine ⟨fun v h _ => absurd h (by have := jsize_pos v; omega),
      fun xs h _ => ?_, fun fs h _ => ?_⟩
    · cases xs with
      | nil => simp [printElems]
      | cons x t => exact absurd h (by have := jsizeList_pos x t; omega)
    · cases fs with
      | nil => simp [printFields]
      | cons f t => exact absurd h (by have := jsizeFields_pos f t; omega)
  | succ fuel ih =>
    obtain ⟨ihv, ihl, ihf⟩ := ih
    refine ⟨?_, ?_, ?_⟩
    · intro v hsz hn
      cases v with
      | jnull => decide
      | jbool b => cases b <;> decide
      | jnum s => exact absurd hn (by simp [numFree])
      | jstr s =>
        have h1 := newline_not_mem_escStr s
        simp only [printVal, printStr, List.mem_append, List.mem_cons,
          List.mem_singleton, List.not_mem_nil, or_false, false_or]
        push_neg
        refine ⟨⟨by decide, h1⟩, by decide⟩
      | jarr xs =>
        have h1 : jsizeList xs ≤ fuel := by simp only [jsize] at hsz; omega
        have h2 := ihl xs h1 (by simpa [numFree] using hn)
        simp only [printVal, List.mem_append, List.mem_cons, List.mem_singleton,
          List.not_mem_nil, or_false, false_or]
        push_neg
        exact ⟨⟨by decide, h2⟩, by decide⟩
      | jobj fs =>
        have h1 : jsizeFields fs ≤ fuel := by simp only [jsize] at hsz; omega
        have h2 := ihf fs h1 (by simpa [numFree] using hn)
        simp only [printVal, List.mem_append, List.mem_cons, List.mem_singleton,
          List.not_mem_nil, or_false, false_or]
        push_neg
        exact ⟨⟨by decide, h2⟩, by decide⟩
    · intro xs hsz hn
      cases xs with
      | nil => simp [printElems]
      | cons x xs' =>
        have hnx : numFree x = true ∧ numFreeList xs' = true := by
          simpa [numFreeList, Bool.and_eq_true] using hn
        cases xs' with
        | nil =>
          have h1 : jsize x ≤ fuel := by simp only [jsizeList] at hsz; omega
          exact ihv x h1 hnx.1
        | cons y r =>
          have h1 : jsize x ≤ fuel := by simp only [jsizeList] at hsz; omega
          have h3 : jsizeList (y :: r) ≤ fuel := by
            simp only [jsizeList] at hsz ⊢; omega
          have h2 := ihv x h1 hnx.1
          have h4 := ihl (y :: r) h3 hnx.2
          simp only [printElems, List.mem_append, List.mem_cons]
          push_neg
          exact ⟨h2, by decide, h4⟩
    · intro fs hsz hn
      cases fs with
      | nil => simp [printFields]
      | cons f fs' =>
        rcases f with ⟨k, v⟩
        have hnx : numFree v = true ∧ numFreeFields fs' = true := by
          simpa [numFreeFields, Bool.and_eq_true] using hn
        cases fs' with
        | nil =>
          have h1 : jsize v ≤ fuel := by simp only [jsizeFields] at hsz; omega
          have h2 := ihv v h1 hnx.1
          have hk := newline_not_mem_escStr k
          simp only [printFields, printStr, List.mem_append, List.mem_cons,
            List.mem_singleton, List.not_mem_nil, or_false, false_or]
          push_neg
          exact ⟨⟨⟨by decide, hk⟩, by decide⟩, by decide, h2⟩
        | cons g r =>
          have h1 : jsize v ≤ fuel := by simp only [jsizeFields] at hsz; omega
          have h3 : jsizeFields (g :: r) ≤ fuel := by
            simp only [jsizeFields] at hsz ⊢; omega
          have h2 := ihv v h1 hnx.1
          have h4 := ihf (g :: r) h3 hnx.2
          have hk := newline_not_mem_escStr k
          simp [printFields, printStr, hk, h2, h4]

theorem marshalPlan_no_newline (p : Plan) : '\n' ∉ marshalPlan p := by
  exact (printVal_no_newline_all (jsize (encodePlan p))).1 (encodePlan p) le_rfl
    (numFree_encodePlan p)

/-- The lazy close-scan stops exactly at the separating newline when the
capture itself holds no fence and no newline. -/
theorem splitClose_sep :
    ∀ body post, listHasSub fenceChars body = false → '\n' ∉ body →
      splitClose (body ++ '\n' :: '`' :: '`' :: '`' :: post) =
        some (body, '`' :: '`' :: '`' :: post) := by
  intro body
  induction body with
  | nil =>
    intro post _ _
    simp [splitClose, isFence, List.isPrefixOf]
  | cons c t ih =>
    intro post hf hn
    simp only [listHasSub, Bool.or_eq_false_iff] at hf
    have hcn : c ≠ '\n' := fun h => hn (h ▸ List.mem_cons_self c t)
    have hn' : '\n' ∉ t := fun h => hn (List.mem_cons_of_mem c h)
    have hfe : isFence (c :: (t ++ '\n' :: '`' :: '`' :: '`' :: post)) = false := by
      cases t with
      | nil => simp [isFence, List.isPrefixOf]
      | cons d t' =>
        cases t' with
        | nil => simp [isFence, List.isPrefixOf]
        | cons e t'' =>
          have h1 := hf.1
          simp only [isFence, fenceChars, List.isPrefixOf, List.cons_append,
            Bool.and_eq_false_iff] at h1 ⊢
          rcases h1 with h | h
          · exact Or.inl h
          rcases h with h | h
          · exact Or.inr (Or.inl h)
          rcases h with h | h
          · exact Or.inr (Or.inr (Or.inl h))
          · simp [List.isPrefixOf] at h
    simp only [List.cons_append, splitClose, List.append_eq]
    rw [hfe, if_neg (by simp)]
    rw [if_neg (by simp [hcn])]
    rw [ih post hf.2 hn']

/-- A backtick-free prefix cannot start a match. -/
theorem extractFenced_skip :
    ∀ pre l, (∀ c ∈ pre, c ≠ '`') → extractFenced (pre ++ l) = extractFenced l := by
  intro pre
  induction pre with
  | nil => intro l _; rfl
  | cons c t ih =>
    intro l hp
    have hc : c ≠ '`' := hp c (List.mem_cons_self c t)
    have hfe : isFence (c :: (t ++ l)) = false := by
      simp only [isFence, fenceChars, List.isPrefixOf, Bool.and_eq_false_iff]
      exact Or.inl (by simp [beq_eq_false_iff_ne]; exact fun h => hc h.symm)
    simp only [List.cons_append, extractFenced, List.append_eq]
    rw [hfe, if_neg (by simp)]
    exact ih l (fun d hd => hp d (List.mem_cons_of_mem c hd))

theorem extractFenced_fence (X : List Char) :
    extractFenced ('`' :: '`' :: '`' :: X) =
      (match tryFenceMatch X with
       | some cap => some cap
       | none => extractFenced ('`' :: '`' :: X)) := by
  rw [extractFenced]
  rw [show isFence ('`' :: '`' :: '`' :: X) = true from by
    simp [isFence, List.isPrefixOf]]
  rw [if_pos rfl]
  rw [show List.drop 2 ('`' :: '`' :: X) = X from rfl]

/-- The first fenced block of a well-shaped wrapped document is captured
exactly. -/
theorem extractFenced_wrapped (pre body post : List Char)
    (hpre : ∀ c ∈ pre, c ≠ '`')
    (hb : listHasSub fenceChars body = false)
    (hn : '\n' ∉ body)
    (hdw : ∃ c t, body = c :: t ∧ isGoWs c = false) :
    extractFenced (pre ++ '`' :: '`' :: '`' :: 'j' :: 's' :: 'o' :: 'n' :: '\n' ::
      (body ++ '\n' :: '`' :: '`' :: '`' :: post)) = some body := by
  rw [extractFenced_skip pre _ hpre, extractFenced_fence]
  have htf : tryFenceMatch ('j' :: 's' :: 'o' :: 'n' :: '\n' ::
      (body ++ '\n' :: '`' :: '`' :: '`' :: post)) = some body := by
    obtain ⟨c, t, hbody, hgw⟩ := hdw
    unfold tryFenceMatch
    rw [show dropJsonTag ('j' :: 's' :: 'o' :: 'n' :: '\n' ::
      (body ++ '\n' :: '`' :: '`' :: '`' :: post)) =
      '\n' :: (body ++ '\n' :: '`' :: '`' :: '`' :: post) from rfl]
    rw [show List.dropWhile isGoWs ('\n' :: (body ++ '\n' :: '`' :: '`' :: '`' :: post)) =
      List.dropWhile isGoWs (body ++ '\n' :: '`' :: '`' :: '`' :: post) from rfl]
    rw [hbody]
    rw [show List.dropWhile isGoWs ((c :: t) ++ '\n' :: '`' :: '`' :: '`' :: post) =
      List.dropWhile isGoWs (c :: (t ++ '\n' :: '`' :: '`' :: '`' :: post)) from rfl]
    rw [List.dropWhile_cons_of_neg (by simp [hgw])]
    rw [show (c : Char) :: (t ++ '\n' :: '`' :: '`' :: '`' :: post) =
      (c :: t) ++ '\n' :: '`' :: '`' :: '`' :: post from rfl]
    rw [← hbody, splitClose_sep body post hb hn]
    rfl
  rw [htf]

/-- Bare round trip: when the serialized plan contains no fence, the
regex does not fire and the whole output parses back. -/
theorem goParsePlan_marshal (p : Plan)
    (hf : listHasSub fenceChars (marshalPlan p) = false) :
    goParsePlan (marshalPlan p) = some p := by
  have hcand : jsonCandidate (marshalPlan p) = marshalPlan p := by
    unfold jsonCandidate
    rw [extractFenced_none _ hf]
  unfold goParsePlan
  rw [hcand, show marshalPlan p = printVal (encodePlan p) from rfl,
    parseJsonL_print _ (numFree_encodePlan p)]
  exact decodePlan_enc p

/-- Wrapped round trip: prose before the fence (backtick-free), a
` ```json ` fence around the serialized plan, anything after. -/
theorem goParsePlan_wrapped (p : Plan) (pre post : List Char)
    (hf : listHasSub fenceChars (marshalPlan p) = false)
    (hpre : ∀ c ∈ pre, c ≠ '`') :
    goParsePlan (pre ++ '`' :: '`' :: '`' :: 'j' :: 's' :: 'o' :: 'n' :: '\n' ::
      (marshalPlan p ++ '\n' :: '`' :: '`' :: '`' :: post)) = some p := by
  have hhead : ∃ c t, marshalPlan p = c :: t ∧ isGoWs c = false := by
    refine ⟨'\x7b', printFields ([("tasks", .jarr (p.tasks.map encodeTask))] ++
      (if p.specs.isEmpty then [] else [("specs", .jarr (p.specs.map encodeSpec))])) ++
      ['\x7d'], ?_, by decide⟩
    rfl
  have hext := extractFenced_wrapped pre (marshalPlan p) post hpre hf
    (marshalPlan_no_newline p) hhead
  unfold goParsePlan jsonCandidate
  rw [hext, show marshalPlan p = printVal (encodePlan p) from rfl,
    parseJsonL_print _ (numFree_encodePlan p)]
  exact decodePlan_enc p

/-- Claim C8 (amended): for every `Plan` whose serialized JSON contains no
` ``` ` fence, serializing and parsing back with `ParsePlan` yields an
equal structure, both bare and wrapped in a ` ```json ` fenced block with
backtick-free prose before it and arbitrary text after it; and for every
output whose extracted candidate is not valid JSON, `ParsePlan` returns an
error value (no plan, no panic) while the engine-level parse leaves the
previously known plan unchanged.  (The original claim, quantified over
every `Plan`, fails: a fence inside a plan field derails the extraction
regex — see the counterexample.) -/
theorem c8_plan_round_trip (p : Plan) (pre post : List Char)
    (hf : listHasSub fenceChars (marshalPlan p) = false)
    (hpre : ∀ c ∈ pre, c ≠ '`') :
    goParsePlan (marshalPlan p) = some p ∧
    goParsePlan (pre ++ '`' :: '`' :: '`' :: 'j' :: 's' :: 'o' :: 'n' :: '\n' ::
      (marshalPlan p ++ '\n' :: '`' :: '`' :: '`' :: post)) = some p ∧
    (∀ output plan, parseJsonL (jsonCandidate output) = none →
      goParsePlan output = none ∧ enginePlanUpdate output plan = plan) := by
  refine ⟨goParsePlan_marshal p hf, goParsePlan_wrapped p pre post hf hpre, ?_⟩
  intro output plan hpf
  constructor
  · unfold goParsePlan
    rw [hpf]
  · unfold enginePlanUpdate
    rw [hpf]

/-- Counterexample to claim C8 as stated: the plan whose task description
contains a full ` ```x``` ` fence does not survive the round trip — the
extraction regex captures `x`, which is not valid JSON, and `ParsePlan`
errors out. -/
theorem c8_plan_round_trip_counterexample :
    goParsePlan (marshalPlan pbadPlan) = none ∧
    (none : Option Plan) ≠ some pbadPlan := by
  exact ⟨by decide, by decide⟩

/-- Witness: the benign two-task plan satisfies the fence-free hypothesis
and round-trips, bare and wrapped in prose. -/
theorem c8_plan_round_trip_witness :
    listHasSub fenceChars (marshalPlan pGoodPlan) = false ∧
    (∀ c ∈ ['P', 'l', 'a', 'n', ':', '\n'], c ≠ '`') ∧
    goParsePlan (marshalPlan pGoodPlan) = some pGoodPlan ∧
    goParsePlan (['P', 'l', 'a', 'n', ':', '\n'] ++
      '`' :: '`' :: '`' :: 'j' :: 's' :: 'o' :: 'n' :: '\n' ::
      (marshalPlan pGoodPlan ++ '\n' :: '`' :: '`' :: '`' :: (' ' :: 'o' :: 'k' :: []))) =
      some pGoodPlan := by
  have h := c8_plan_round_trip pGoodPlan ['P', 'l', 'a', 'n', ':', '\n']
    (' ' :: 'o' :: 'k' :: []) (by decide) (by decide)
  exact ⟨by decide, by decide, h.1, h.2.1⟩
